import Mathlib

/-!
Verification development for the esp-scd30 firmware core: the fixed-capacity
ring buffer (`src/ring_buffer.rs`), the software timer multiplexer
(`src/qq_alarm_queue.rs`), the `Delay` helper (`src/machines.rs`), the
interrupt mailboxes (`src/interrupts.rs`) and the sensor acquisition driver
(`src/machines/sdc_simple_measurment.rs`), shallowly embedded as pure Lean
functions.  Partiality of the Rust code (array index panics, `unwrap`) is made
explicit with `Option`: a `none` result models a panic.
-/

set_option linter.unusedVariables false

/-- Error type of the ring buffer (`RingBufferError` in `ring_buffer.rs`).
The `Overflow` variant carries no payload. -/
inductive RingBufferError where
  | Overflow
  deriving DecidableEq, Repr

/-- Shallow embedding of `RingBuffer<T, N, _>` from `ring_buffer.rs`:
`buf` is the physical array (its length is the capacity `N`), `pos` the head
index and `len` the logical length.  The Rust array holds `MaybeUninit<T>`;
here uninitialized slots simply hold whatever junk value they last had. -/
structure RingBuffer (α : Type) where
  buf : List α
  pos : Nat
  len : Nat
  deriving DecidableEq, Repr

namespace RingBuffer

/-- Embedding of `RingBuffer::new()`; `uninit` is the junk value standing for
the uninitialized array contents. -/
def new (N : Nat) (uninit : α) : RingBuffer α :=
  ⟨List.replicate N uninit, 0, 0⟩

/-- Embedding of `RingBuffer::get`: logical index `index` maps to physical
index `(pos + index) % N`. -/
def get (rb : RingBuffer α) (index : Nat) : Option α :=
  if index < rb.len then rb.buf[(rb.pos + index) % rb.buf.length]? else none

/-- Embedding of `RingBuffer::pop_front`.  The outer `Option` models the
possible index-out-of-bounds panic of `self.buf[self.pos]` (`none` = panic);
the inner `Option` is the Rust return value. -/
def popFront (rb : RingBuffer α) : Option (RingBuffer α × Option α) :=
  if rb.len = 0 then
    some (rb, none)
  else
    match rb.buf[rb.pos]? with
    | none => none
    | some v => some ({ rb with pos := (rb.pos + 1) % rb.buf.length, len := rb.len - 1 }, some v)

/-- Embedding of `RingBuffer::pop_back` (outer `Option` models a panic). -/
def popBack (rb : RingBuffer α) : Option (RingBuffer α × Option α) :=
  if rb.len = 0 then
    some (rb, none)
  else
    match rb.buf[(rb.pos + rb.len - 1) % rb.buf.length]? with
    | none => none
    | some v => some ({ rb with len := rb.len - 1 }, some v)

/-- Embedding of `RingBuffer::<T, N, Ignore>::push_back` (reject policy).
Returns the mutated buffer together with the `Result<(), RingBufferError>`. -/
def pushBackIgnore (rb : RingBuffer α) (v : α) : RingBuffer α × Except RingBufferError Unit :=
  if rb.len = rb.buf.length then
    (rb, .error .Overflow)
  else
    ({ rb with buf := rb.buf.set ((rb.pos + rb.len) % rb.buf.length) v, len := rb.len + 1 },
     .ok ())

/-- Embedding of `RingBuffer::<T, N, Overwrite>::push_back`.  The source reads
`self.buf[self.pos]` and then does `self.pos += 1` with no `% N`, so `pos` can
leave the array bounds; `none` models the resulting index panic. -/
def pushBackOverwrite (rb : RingBuffer α) (v : α) : Option (RingBuffer α) :=
  if rb.len = rb.buf.length then
    if rb.pos < rb.buf.length then
      some { rb with buf := rb.buf.set rb.pos v, pos := rb.pos + 1 }
    else
      none
  else
    some { rb with buf := rb.buf.set ((rb.pos + rb.len) % rb.buf.length) v, len := rb.len + 1 }

/-- Pushing a whole list through the overwrite-policy `push_back`. -/
def pushAllOverwrite (rb : RingBuffer α) (l : List α) : Option (RingBuffer α) :=
  l.foldlM pushBackOverwrite rb

/-- Embedding of `RingBuffer::extend_prepare_empty_range` (also resets `pos`
to 0 when the buffer is empty). -/
def extendPrepareEmptyRange (rb : RingBuffer α) : RingBuffer α × Nat × Nat :=
  if rb.len = 0 then
    ({ rb with pos := 0 }, 0, rb.buf.length)
  else
    (rb, (rb.pos + rb.len) % rb.buf.length, if rb.pos = 0 then rb.buf.length else rb.pos)

/-- Embedding of one `iter.by_ref().zip(slots).map(write).count()` pass of
`RingBuffer::<T, N, Ignore>::extend`, writing into `cnt` consecutive physical
slots starting at `start`.  Mirrors Rust `Zip` semantics: the iterator side is
polled first, so when the slots run out while the iterator still has an
element, that element has already been consumed and is dropped.  Returns the
updated array, the number of elements written, and the rest of the iterator. -/
def zipWrite : List α → Nat → Nat → List α → List α × Nat × List α
  | buf, _, _, [] => (buf, 0, [])
  | buf, _, 0, _ :: rest => (buf, 0, rest)
  | buf, start, c + 1, v :: rest =>
    match zipWrite (buf.set start v) (start + 1) c rest with
    | (buf', n, rem) => (buf', n + 1, rem)

/-- Embedding of `RingBuffer::<T, N, Ignore>::extend` on a list of elements
(the Rust iterator, materialised).  Returns the mutated buffer and the
`Result`. -/
def extend (rb : RingBuffer α) (l : List α) : RingBuffer α × Except RingBufferError Unit :=
  if rb.len = rb.buf.length then
    match l with
    | [] => (rb, .ok ())
    | _ :: _ => (rb, .error .Overflow)
  else
    match extendPrepareEmptyRange rb with
    | (rb, s, e) =>
      if s < e then
        match zipWrite rb.buf s (e - s) l with
        | (buf', n, rem) =>
          let rb := { rb with buf := buf', len := rb.len + n }
          match rem with
          | [] => (rb, .ok ())
          | _ :: _ => (rb, .error .Overflow)
      else
        match zipWrite rb.buf s (rb.buf.length - s) l with
        | (buf1, n1, rem1) =>
          match zipWrite buf1 0 e rem1 with
          | (buf2, n2, rem2) =>
            let rb := { rb with buf := buf2, len := rb.len + n1 + n2 }
            match rem2 with
            | [] => (rb, .ok ())
            | _ :: _ => (rb, .error .Overflow)

/-- Writing a list of elements into consecutive physical slots starting at
`start`; embedding of `MaybeUninit::copy_from_slice` into `buf[start..end]`. -/
def writeSeq : List α → Nat → List α → List α
  | buf, _, [] => buf
  | buf, i, v :: rest => writeSeq (buf.set i v) (i + 1) rest

/-- Embedding of `RingBuffer::extend_from_slice_continous`: copies as much of
`s` as fits into slots `[start, stop)` and returns the remaining slice. -/
def extendFromSliceContinous (rb : RingBuffer α) (start stop : Nat) (s : List α) :
    RingBuffer α × List α :=
  let cnt := stop - start
  if s.length < cnt then
    ({ rb with buf := writeSeq rb.buf start s, len := rb.len + s.length }, [])
  else
    ({ rb with buf := writeSeq rb.buf start (s.take cnt), len := rb.len + cnt }, s.drop cnt)

/-- Embedding of `RingBuffer::extend_len_into_result`. -/
def extendLenIntoResult (n : Nat) : Except RingBufferError Unit :=
  if n = 0 then .ok () else .error .Overflow

/-- Embedding of `RingBuffer::<T, N, Ignore>::extend_from_slice`. -/
def extendFromSlice (rb : RingBuffer α) (s : List α) : RingBuffer α × Except RingBufferError Unit :=
  if s.length = 0 then
    (rb, .ok ())
  else if rb.len = rb.buf.length then
    (rb, .error .Overflow)
  else
    match extendPrepareEmptyRange rb with
    | (rb, st, e) =>
      if st < e then
        match extendFromSliceContinous rb st e s with
        | (rb', rem) => (rb', extendLenIntoResult rem.length)
      else
        match extendFromSliceContinous rb st rb.buf.length s with
        | (rb1, s1) =>
          if s1.length = 0 then
            (rb1, .ok ())
          else
            match extendFromSliceContinous rb1 0 e s1 with
            | (rb2, rem) => (rb2, extendLenIntoResult rem.length)

end RingBuffer

/-- **C1.** Code bug witness: pushing `N + k` elements through the
overwrite-policy `push_back` does *not* always succeed.  `push_back` advances
`pos` without wrapping (`self.pos += 1`, no `% N`), so after `N` overwrites
`pos == N` and the next overwriting push indexes `self.buf[N]` out of bounds
and panics.  Concretely, with capacity `N = 2` and `N + k = 5` pushed elements
(`k = 3 > 0`) the fifth push panics (`none`), where the claim requires all
five pushes to succeed and the buffer to end holding `[4, 5]`. -/
theorem c1_overwrite_bulk_push_panics :
    RingBuffer.pushAllOverwrite (RingBuffer.new 2 0) [1, 2, 3, 4, 5] = none := by
  rfl

/-- **C3.** Code bug witness for the reject-policy `extend`: Rust's `Zip`
consumes one extra element from the source iterator when the free-slot side
runs out first, so (1) on a full-to-the-brim write, `extend` returns `Ok` even
though one input element did not fit and was silently dropped (capacity 1,
input `[10, 20]`: result is `Ok` with buffer `[10]`, where the claim requires
an `Overflow` error), and (2) in the wrap-around case an element in the
*middle* of the input is dropped while later elements are still written
(capacity 3, one element at physical index 1, input `[10, 11, 12]`: `11` is
lost, `12` is written, and the call wrongly succeeds).  `extend_from_slice`
on the same input correctly reports `Overflow`, confirming the intent. -/
theorem c3_extend_zip_drops_elements :
    RingBuffer.extend (RingBuffer.new 1 0) [10, 20] = (⟨[10], 0, 1⟩, .ok ()) ∧
    RingBuffer.extend ⟨[9, 9, 9], 1, 1⟩ [10, 11, 12] = (⟨[12, 9, 10], 1, 3⟩, .ok ()) ∧
    (RingBuffer.extendFromSlice (RingBuffer.new 1 0) [10, 20]).2 =
      .error RingBufferError.Overflow := by
  refine ⟨rfl, rfl, rfl⟩

/-- Operations of a push/pop sequence on a reject-policy ring buffer. -/
inductive RBOp (α : Type) where
  | push (v : α)
  | popF
  | popB

namespace RingBuffer

/-- One step of a push/pop sequence (`none` models a panic). -/
def applyIgnoreOp (rb : RingBuffer α) : RBOp α → Option (RingBuffer α)
  | .push v => some (rb.pushBackIgnore v).1
  | .popF => rb.popFront.map (·.1)
  | .popB => rb.popBack.map (·.1)

/-- Running a whole push/pop sequence. -/
def runIgnoreOps (rb : RingBuffer α) (ops : List (RBOp α)) : Option (RingBuffer α) :=
  ops.foldlM applyIgnoreOp rb

/-- Well-formedness of a ring-buffer state: the logical length is bounded by
the capacity and the head index is in bounds (unless the capacity is 0). -/
abbrev WF (rb : RingBuffer α) : Prop :=
  rb.len ≤ rb.buf.length ∧ (rb.buf.length = 0 ∨ rb.pos < rb.buf.length)

theorem applyIgnoreOp_wf (rb : RingBuffer α) (op : RBOp α) (h : rb.WF) :
    ∃ rb', rb.applyIgnoreOp op = some rb' ∧ rb'.WF ∧ rb'.buf.length = rb.buf.length := by
  obtain ⟨hlen, hpos⟩ := h
  cases op with
  | push v =>
    by_cases hfull : rb.len = rb.buf.length
    · exact ⟨rb, by simp [applyIgnoreOp, pushBackIgnore, hfull], ⟨hlen, hpos⟩, rfl⟩
    · refine ⟨⟨rb.buf.set ((rb.pos + rb.len) % rb.buf.length) v, rb.pos, rb.len + 1⟩,
        by simp [applyIgnoreOp, pushBackIgnore, hfull], ⟨?_, ?_⟩, by simp⟩
      · simpa using Nat.succ_le_of_lt (lt_of_le_of_ne hlen hfull)
      · simpa using hpos
  | popF =>
    by_cases hz : rb.len = 0
    · exact ⟨rb, by simp [applyIgnoreOp, popFront, hz], ⟨hlen, hpos⟩, rfl⟩
    · have hN : 0 < rb.buf.length := by omega
      have hp : rb.pos < rb.buf.length := by omega
      refine ⟨⟨rb.buf, (rb.pos + 1) % rb.buf.length, rb.len - 1⟩, ?_, ⟨?_, ?_⟩, rfl⟩
      · simp [applyIgnoreOp, popFront, hz, List.getElem?_eq_getElem hp]
      · show rb.len - 1 ≤ rb.buf.length
        omega
      · exact Or.inr (Nat.mod_lt _ hN)
  | popB =>
    by_cases hz : rb.len = 0
    · exact ⟨rb, by simp [applyIgnoreOp, popBack, hz], ⟨hlen, hpos⟩, rfl⟩
    · have hN : 0 < rb.buf.length := by omega
      have hidx : (rb.pos + rb.len - 1) % rb.buf.length < rb.buf.length := Nat.mod_lt _ hN
      refine ⟨⟨rb.buf, rb.pos, rb.len - 1⟩, ?_, ⟨?_, ?_⟩, rfl⟩
      · simp [applyIgnoreOp, popBack, hz, List.getElem?_eq_getElem hidx]
      · show rb.len - 1 ≤ rb.buf.length
        omega
      · exact hpos

theorem runIgnoreOps_wf (ops : List (RBOp α)) (rb : RingBuffer α) (h : rb.WF) :
    ∃ rb', rb.runIgnoreOps ops = some rb' ∧ rb'.WF ∧ rb'.buf.length = rb.buf.length := by
  induction ops generalizing rb with
  | nil => exact ⟨rb, rfl, h, rfl⟩
  | cons op ops ih =>
    obtain ⟨rb1, h1, hwf1, hlen1⟩ := applyIgnoreOp_wf rb op h
    obtain ⟨rb2, h2, hwf2, hlen2⟩ := ih rb1 hwf1
    refine ⟨rb2, ?_, hwf2, by omega⟩
    simpa [runIgnoreOps, List.foldlM_cons, h1] using h2

end RingBuffer

/-- Distinct logical indices below the capacity map to distinct physical
indices. -/
theorem ringBuffer_mod_index_ne {pos i len N : Nat} (hi : i < len) (hlen : len < N) :
    (pos + i) % N ≠ (pos + len) % N := by
  intro h
  have h2 : i % N = len % N := Nat.ModEq.add_left_cancel' pos h
  rw [Nat.mod_eq_of_lt (hi.trans hlen), Nat.mod_eq_of_lt hlen] at h2
  omega

/-- **C4.** For the reject-policy ring buffer, `push_back` fails with
`Overflow` iff `len == N` at call time; on failure the whole buffer state is
unchanged; otherwise it appends the element at the back (logical position
`len`), keeps all existing elements, and increments the length; and along any
sequence of push/pop operations from a fresh buffer no panic occurs and the
length never exceeds `N`. -/
theorem c4_reject_push_correct (rb : RingBuffer α) (v : α) (N : Nat) (d : α)
    (ops : List (RBOp α)) (hwf : rb.len ≤ rb.buf.length) :
    ((rb.pushBackIgnore v).2 = .error .Overflow ↔ rb.len = rb.buf.length) ∧
    (rb.len = rb.buf.length → (rb.pushBackIgnore v).1 = rb) ∧
    (rb.len ≠ rb.buf.length →
      (rb.pushBackIgnore v).2 = .ok () ∧
      (rb.pushBackIgnore v).1.len = rb.len + 1 ∧
      (rb.pushBackIgnore v).1.get rb.len = some v ∧
      ∀ i, i < rb.len → (rb.pushBackIgnore v).1.get i = rb.get i) ∧
    ∃ rb', (RingBuffer.new N d).runIgnoreOps ops = some rb' ∧ rb'.len ≤ N := by
  refine ⟨?_, ?_, ?_, ?_⟩
  · by_cases hfull : rb.len = rb.buf.length <;> simp [RingBuffer.pushBackIgnore, hfull]
  · intro hfull
    simp [RingBuffer.pushBackIgnore, hfull]
  · intro hfull
    have hlt : rb.len < rb.buf.length := lt_of_le_of_ne hwf hfull
    have hN : 0 < rb.buf.length := by omega
    refine ⟨by simp [RingBuffer.pushBackIgnore, hfull], by simp [RingBuffer.pushBackIgnore, hfull],
      ?_, ?_⟩
    · simp only [RingBuffer.pushBackIgnore, hfull, if_false, RingBuffer.get, List.length_set,
        Nat.lt_succ_self, if_true]
      exact List.getElem?_set_self (Nat.mod_lt _ hN)
    · intro i hi
      simp only [RingBuffer.pushBackIgnore, hfull, if_false, RingBuffer.get, List.length_set,
        Nat.lt_succ_of_lt hi, if_true, hi]
      exact List.getElem?_set_ne (Ne.symm (ringBuffer_mod_index_ne hi hlt))
  · obtain ⟨rb', hrun, hwf', hcap⟩ := RingBuffer.runIgnoreOps_wf ops (RingBuffer.new N d)
      ⟨by simp [RingBuffer.new], by simp [RingBuffer.new]; omega⟩
    refine ⟨rb', hrun, ?_⟩
    have := hwf'.1
    simp [RingBuffer.new] at hcap
    omega

/-- Closed instantiation of the hypotheses of `c4_reject_push_correct`: a full
capacity-2 buffer rejects a push unchanged, and a non-full buffer accepts. -/
theorem c4_reject_push_correct_witness :
    ((RingBuffer.mk [5, 6] 0 2).pushBackIgnore 7).1 = RingBuffer.mk [5, 6] 0 2 ∧
    ((RingBuffer.mk [5] 0 0).pushBackIgnore 7).2 = .ok () :=
  ⟨(c4_reject_push_correct (RingBuffer.mk [5, 6] 0 2) 7 1 0 [] (by decide)).2.1 rfl,
   ((c4_reject_push_correct (RingBuffer.mk [5] 0 0) 7 1 0 [] (by decide)).2.2.1
      (by decide)).1⟩

/-- Embedding of the `Delay` helper state machine from `machines.rs`. -/
inductive Delay where
  | Waiting (qqAlarmId : Nat)
  | Done
  deriving DecidableEq, Repr

/-- Embedding of `Delay::on_alarm`: returns the new state and the returned
boolean. -/
def Delay.onAlarm : Delay → Nat → Delay × Bool
  | .Waiting id, c => if id = c then (.Done, true) else (.Waiting id, false)
  | .Done, _ => (.Done, false)

/-- Repeated `on_alarm` calls, collecting the returned booleans. -/
def Delay.runAlarms (d : Delay) (ids : List Nat) : Delay × List Bool :=
  ids.foldl (fun p c => ((Delay.onAlarm p.1 c).1, p.2 ++ [(Delay.onAlarm p.1 c).2])) (d, [])

theorem Delay.runAlarms_done_aux (ids : List Nat) (acc : List Bool) :
    ids.foldl (fun p c => ((Delay.onAlarm p.1 c).1, p.2 ++ [(Delay.onAlarm p.1 c).2]))
      (Delay.Done, acc) = (Delay.Done, acc ++ List.replicate ids.length false) := by
  induction ids generalizing acc with
  | nil => simp
  | cons c ids ih =>
    rw [List.foldl_cons]
    show List.foldl _ (Delay.Done, acc ++ [false]) ids = _
    rw [ih]
    simp [List.replicate_succ, List.append_assoc]

/-- **C7.** `Delay::on_alarm(candidate_id)` returns true iff the delay is
`Waiting{id}` with `id == candidate_id`, in which case it transitions to
`Done`; in every other case it returns false and leaves the delay unchanged;
and once it has returned true, every subsequent `on_alarm` call (any sequence
of candidate ids) returns false. -/
theorem c7_delay_on_alarm (d : Delay) (c : Nat) (ids : List Nat) :
    ((d.onAlarm c).2 = true ↔ d = .Waiting c) ∧
    ((d.onAlarm c).2 = true → (d.onAlarm c).1 = .Done) ∧
    ((d.onAlarm c).2 = false → (d.onAlarm c).1 = d) ∧
    ((d.onAlarm c).2 = true →
      (Delay.runAlarms (d.onAlarm c).1 ids).2 = List.replicate ids.length false) := by
  cases d with
  | Done => refine ⟨?_, ?_, ?_, ?_⟩ <;> simp [Delay.onAlarm]
  | Waiting id =>
    by_cases h : id = c
    · subst h
      refine ⟨by simp [Delay.onAlarm], by simp [Delay.onAlarm], by simp [Delay.onAlarm], ?_⟩
      intro _
      have h1 : ((Delay.Waiting id).onAlarm id).1 = Delay.Done := by simp [Delay.onAlarm]
      rw [h1]
      unfold Delay.runAlarms
      rw [Delay.runAlarms_done_aux]
      simp
    · exact ⟨by simp [Delay.onAlarm, h], by simp [Delay.onAlarm, h],
        by simp [Delay.onAlarm, h], by simp [Delay.onAlarm, h]⟩

/-- Closed instantiation of `c7_delay_on_alarm`: after a successful
`on_alarm 3` on `Waiting 3`, offering ids `[0, 3]` yields false twice. -/
theorem c7_delay_on_alarm_witness :
    (Delay.runAlarms ((Delay.Waiting 3).onAlarm 3).1 [0, 3]).2 = List.replicate 2 false :=
  (c7_delay_on_alarm (Delay.Waiting 3) 3 [0, 3]).2.2.2 rfl

/-- Defined-bit set of `USBInterruptStatus` (`SERIAL_IN_EMPTY = 1 << 3`). -/
def USB_KNOWN_BITS : Nat := 1 <<< 3

/-- Defined-bit set of `SystimerTartet0InterruptStatus` (`TARGET = 1 << 0`). -/
def SYSTIMER_KNOWN_BITS : Nat := 1 <<< 0

/-- All bits of a `u32`. -/
def U32_MASK : Nat := 2 ^ 32 - 1

/-- Embedding of the `*_interrupt_get_and_clear` functions of `interrupts.rs`,
generic over the flag type's defined-bit set `known`; `m` is the current
mailbox value.  The handler side stores raw hardware status bits, so `m` may
hold bits outside `known`.  `fetch_and((!interrupts).bits())` stores
`m AND (complement of mask truncated to known)` — the bitflags complement `!`
keeps only the type's defined bits — and returns the old value; the result is
`from_bits_truncate(old).intersection(mask)`.  First component: new mailbox
value; second: returned status bits. -/
def interruptGetAndClear (known m mask : Nat) : Nat × Nat :=
  (m &&& ((U32_MASK ^^^ mask) &&& known), (m &&& known) &&& mask)

/-- **C8, counterexample.** The claim says `get_and_clear(mask)` clears
exactly the bits of `mask`, leaving all other mailbox bits as they were.
Taking the USB mailbox (`known = SERIAL_IN_EMPTY = bit 3`) holding raw
hardware bit 1 (`m = 2`) and `mask = bit 3`: bit 1 is set before the call and
not in `mask`, yet it is cleared by the call. -/
theorem c8_get_and_clear_counterexample :
    Nat.testBit 2 1 = true ∧ Nat.testBit (1 <<< 3) 1 = false ∧
    ((interruptGetAndClear USB_KNOWN_BITS 2 (1 <<< 3)).1).testBit 1 = false := by
  refine ⟨by decide, by decide, by decide⟩

/-- **C8, amended.** `get_and_clear(mask)` clears the bits of `mask` *and*
every mailbox bit outside the flag type's defined-bit set `known` (defined
bits outside `mask` are left unchanged): the new mailbox value holds exactly
the bits that were set, not requested, and defined.  The returned value is the
set of bits both set and requested (`old ∩ mask`, for a well-typed mask, i.e.
`mask ⊆ known`).  Consequently two successive calls with the same mask and no
intervening hardware event return a non-empty result at most on the first
call: the second call always returns 0. -/
theorem c8_get_and_clear_amended (known m mask : Nat) (hmk : mask &&& known = mask)
    (hm32 : m < 2 ^ 32) (hk32 : known < 2 ^ 32) :
    (∀ i, ((interruptGetAndClear known m mask).1).testBit i =
      (m.testBit i && !(mask.testBit i) && known.testBit i)) ∧
    (interruptGetAndClear known m mask).2 = m &&& mask ∧
    (interruptGetAndClear known (interruptGetAndClear known m mask).1 mask).2 = 0 := by
  have hmask32 : mask < 2 ^ 32 := by
    calc mask = mask &&& known := hmk.symm
    _ ≤ known := Nat.and_le_right
    _ < 2 ^ 32 := hk32
  have hbit : ∀ i, ((interruptGetAndClear known m mask).1).testBit i =
      (m.testBit i && !(mask.testBit i) && known.testBit i) := by
    intro i
    by_cases h32 : i < 32
    · have hu : Nat.testBit U32_MASK i = true := by
        show Nat.testBit (2 ^ 32 - 1) i = true
        rw [Nat.testBit_two_pow_sub_one]
        exact decide_eq_true h32
      simp [interruptGetAndClear, Nat.testBit_and, Nat.testBit_xor, hu, Bool.and_assoc]
    · have hknown : known.testBit i = false := by
        apply Nat.testBit_eq_false_of_lt
        calc known < 2 ^ 32 := hk32
        _ ≤ 2 ^ i := Nat.pow_le_pow_right (by omega) (by omega)
      simp [interruptGetAndClear, Nat.testBit_and, hknown]
  refine ⟨hbit, ?_, ?_⟩
  · apply Nat.eq_of_testBit_eq
    intro i
    have h := congrArg (fun x => Nat.testBit x i) hmk
    simp only [Nat.testBit_and] at h
    simp only [interruptGetAndClear, Nat.testBit_and]
    cases hb : mask.testBit i <;> cases hm : m.testBit i <;> cases hk : known.testBit i <;>
      simp_all
  · apply Nat.eq_of_testBit_eq
    intro i
    have h := hbit i
    simp only [interruptGetAndClear] at h ⊢
    rw [Nat.testBit_and, Nat.testBit_and, h, Nat.zero_testBit]
    cases mask.testBit i <;> simp

/-- Closed instantiation of `c8_get_and_clear_amended` on the USB mailbox:
mailbox holds raw bits 1 and 3, mask is `SERIAL_IN_EMPTY` (bit 3); the call
returns bit 3 and the second call returns nothing. -/
theorem c8_get_and_clear_amended_witness :
    (interruptGetAndClear USB_KNOWN_BITS 10 (1 <<< 3)).2 = 10 &&& (1 <<< 3) ∧
    (interruptGetAndClear USB_KNOWN_BITS
      (interruptGetAndClear USB_KNOWN_BITS 10 (1 <<< 3)).1 (1 <<< 3)).2 = 0 :=
  ⟨(c8_get_and_clear_amended USB_KNOWN_BITS 10 (1 <<< 3) (by decide) (by decide)
      (by decide)).2.1,
   (c8_get_and_clear_amended USB_KNOWN_BITS 10 (1 <<< 3) (by decide) (by decide)
      (by decide)).2.2⟩

/-- Error type of the alarm queue (`QQAlarmError` in `qq_alarm_queue.rs`). -/
inductive QQAlarmError where
  | QueueFull
  | IdNotFound
  deriving DecidableEq, Repr

/-- Embedding of `QQAlarmState`. -/
inductive QQAlarmState where
  | Waiting
  | Pending
  deriving DecidableEq, Repr

/-- Embedding of the `QQAlarm` slot payload. -/
structure QQAlarm where
  id : Nat
  wakeAt : Nat
  state : QQAlarmState
  deriving DecidableEq, Repr

/-- State of the hardware comparator/alarm owned by the queue: the programmed
target tick (`Alarm::set_target`) and the alarm interrupt enable flag
(`Alarm::enable_interrupt`).  `clear_interrupt` only resets the latched status
bit, which is not part of the modelled state.  Ticks are modelled as `Nat`:
the 52-bit systimer count cannot overflow `u64` arithmetic in practice. -/
structure AlarmHW where
  target : Nat
  intEnabled : Bool
  deriving DecidableEq, Repr

/-- Embedding of `DumbQQAlarmQueue<N>`; `queue` has length `N`. -/
structure DumbQQAlarmQueue where
  alarm : AlarmHW
  queue : List (Option QQAlarm)
  nextWakeup : Option Nat
  nextId : Nat
  anyPending : Bool
  deriving DecidableEq, Repr

/-- One `map_or`/`cmp::min` accumulation step shared by the minimum
computations (`Some(min_wake_at.map_or(wake_at, |m| cmp::min(m, wake_at)))`). -/
def minAcc (acc : Option Nat) (w : Nat) : Option Nat :=
  some (acc.elim w (fun m => min m w))

/-- Generic form of the single-pass minimum loops of `qq_alarm_queue.rs`: a
left fold over the slots that min-accumulates `wake_at` of every `Some` slot
satisfying `p`. -/
def minWakeFold (p : QQAlarm → Bool) (queue : List (Option QQAlarm)) (acc : Option Nat) :
    Option Nat :=
  queue.foldl
    (fun acc s =>
      match s with
      | some a => if p a then minAcc acc a.wakeAt else acc
      | none => acc)
    acc

namespace DumbQQAlarmQueue

/-- Embedding of `DumbQQAlarmQueue::new`; the hardware alarm arrives with an
arbitrary programmed target and its interrupt disabled. -/
def new (N : Nat) (target0 : Nat) : DumbQQAlarmQueue :=
  ⟨⟨target0, false⟩, List.replicate N none, none, 0, false⟩

/-- Embedding of `DumbQQAlarmQueue::add`.  Returns the new state and the
returned `Result<usize, QQAlarmError>`. -/
def add (q : DumbQQAlarmQueue) (wakeAt : Nat) :
    DumbQQAlarmQueue × Except QQAlarmError Nat :=
  let id := q.nextId
  let q := { q with nextId := q.nextId + 1 }
  match q.queue.findIdx? (fun s => s.isNone) with
  | none => (q, .error .QueueFull)
  | some i =>
    let q := { q with queue := q.queue.set i (some ⟨id, wakeAt, .Waiting⟩) }
    match q.nextWakeup with
    | some nextWakeup =>
      if wakeAt < nextWakeup then
        ({ q with alarm := { q.alarm with target := wakeAt }, nextWakeup := some wakeAt },
         .ok id)
      else
        (q, .ok id)
    | none =>
      ({ q with alarm := { target := wakeAt, intEnabled := true }, nextWakeup := some wakeAt },
       .ok id)

/-- Marking pass of `DumbQQAlarmQueue::update`: every Waiting slot whose
`wake_at <= now` becomes Pending. -/
def markPending (queue : List (Option QQAlarm)) (now : Nat) : List (Option QQAlarm) :=
  queue.map (fun s =>
    match s with
    | some a =>
      if a.state = .Waiting ∧ a.wakeAt ≤ now then some { a with state := .Pending } else some a
    | none => none)

/-- Whether the marking pass of `update` turns some slot Pending (the loop
writes `self.any_pending = true` exactly when this holds). -/
def anyNewlyPending (queue : List (Option QQAlarm)) (now : Nat) : Bool :=
  queue.any (fun s =>
    match s with
    | some a => decide (a.state = QQAlarmState.Waiting ∧ a.wakeAt ≤ now)
    | none => false)

/-- The `min_wake_at` accumulation of `update`: minimum `wake_at` over the
slots that stay Waiting (`wake_at > now`). -/
def minWaitingAbove (queue : List (Option QQAlarm)) (now : Nat) : Option Nat :=
  minWakeFold (fun a => decide (a.state = QQAlarmState.Waiting) && !decide (a.wakeAt ≤ now))
    queue none

/-- Embedding of `DumbQQAlarmQueue::update`.  `intrPending` says whether the
systimer-target mailbox had the TARGET bit (`get_and_clear` non-empty); `now`
is the first `SystemTimer::now()` read (deciding which slots are due) and
`now2` the second one (used in the `max(now + 250, min_wake_at)` reprogram
guard). -/
def update (q : DumbQQAlarmQueue) (intrPending : Bool) (now now2 : Nat) :
    DumbQQAlarmQueue × Bool :=
  if !intrPending then
    (q, false)
  else
    let minWakeAt := minWaitingAbove q.queue now
    let q' := { q with
      queue := markPending q.queue now,
      anyPending := q.anyPending || anyNewlyPending q.queue now,
      nextWakeup := minWakeAt }
    match minWakeAt with
    | some m => ({ q' with alarm := { q'.alarm with target := max (now2 + 250) m } }, true)
    | none => ({ q' with alarm := { q'.alarm with intEnabled := false } }, true)

/-- Embedding of a fully-drained `consume_pending`: `none` when `any_pending`
is false; otherwise yields the ids of the Pending slots in slot order,
clearing each such slot and finally resetting `any_pending`. -/
def consumePending (q : DumbQQAlarmQueue) : DumbQQAlarmQueue × Option (List Nat) :=
  if !q.anyPending then
    (q, none)
  else
    ({ q with
        queue := q.queue.map (fun s =>
          match s with
          | some a => if a.state = .Pending then none else some a
          | none => none),
        anyPending := false },
     some (q.queue.filterMap (fun s =>
       match s with
       | some a => if a.state = .Pending then some a.id else none
       | none => none)))

/-- The `id_found` flag of `remove`: whether some slot holds the given id. -/
def idFound (queue : List (Option QQAlarm)) (id : Nat) : Bool :=
  queue.any (fun s =>
    match s with
    | some a => decide (a.id = id)
    | none => false)

/-- The slot-clearing pass of `remove` (`*qq_alarm_opt = None` on a match). -/
def clearId (queue : List (Option QQAlarm)) (id : Nat) : List (Option QQAlarm) :=
  queue.map (fun s =>
    match s with
    | some a => if a.id = id then none else some a
    | none => none)

/-- The `min_wake_at` accumulator of `remove`: minimum `wake_at` over Waiting
slots other than the removed one. -/
def minWaitingExcept (queue : List (Option QQAlarm)) (id : Nat) : Option Nat :=
  minWakeFold (fun a => !decide (a.id = id) && decide (a.state = QQAlarmState.Waiting))
    queue none

/-- The `any_pending` accumulator of `remove`. -/
def anyPendingExcept (queue : List (Option QQAlarm)) (id : Nat) : Bool :=
  queue.any (fun s =>
    match s with
    | some a => !decide (a.id = id) && decide (a.state = QQAlarmState.Pending)
    | none => false)

/-- Embedding of `DumbQQAlarmQueue::remove`.  The outer `Option` models the
`self.next_wakeup.unwrap()` panic (`none` = panic); the invariant theorems
show the panic is unreachable. -/
def remove (q : DumbQQAlarmQueue) (id : Nat) :
    Option (DumbQQAlarmQueue × Except QQAlarmError Unit) :=
  let minWakeAt := minWaitingExcept q.queue id
  let ap := anyPendingExcept q.queue id
  if !idFound q.queue id then
    some (q, .error .IdNotFound)
  else
    let q := { q with queue := clearId q.queue id }
    match minWakeAt with
    | none =>
      if q.nextWakeup.isSome then
        some (⟨⟨q.alarm.target, false⟩, q.queue, none, q.nextId, ap⟩, .ok ())
      else
        some ({ q with anyPending := ap }, .ok ())
    | some m =>
      match q.nextWakeup with
      | none => none
      | some nw =>
        if m ≠ nw then
          some (⟨⟨m, q.alarm.intEnabled⟩, q.queue, some m, q.nextId, ap⟩, .ok ())
        else
          some ({ q with anyPending := ap }, .ok ())

end DumbQQAlarmQueue

/-- Operations driving the multiplexer from the outside: `add`, `remove`,
hardware-alarm interrupt handling (`update`) and a fully-drained
`consume_pending`. -/
inductive QQOp where
  | add (wakeAt : Nat)
  | remove (id : Nat)
  | update (intrPending : Bool) (now now2 : Nat)
  | consume

namespace DumbQQAlarmQueue

/-- One step of the multiplexer (`none` models the panic in `remove`). -/
def applyOp (q : DumbQQAlarmQueue) : QQOp → Option DumbQQAlarmQueue
  | .add w => some (q.add w).1
  | .remove id => (q.remove id).map (·.1)
  | .update b n n2 => some (q.update b n n2).1
  | .consume => some q.consumePending.1

/-- Running a whole operation sequence. -/
def runOps (q : DumbQQAlarmQueue) (ops : List QQOp) : Option DumbQQAlarmQueue :=
  ops.foldlM applyOp q

/-- Minimum `wake_at` over all Waiting slots (the quantity `next_wakeup`
caches according to the specification). -/
def minWaiting (queue : List (Option QQAlarm)) : Option Nat :=
  minWakeFold (fun a => decide (a.state = QQAlarmState.Waiting)) queue none

/-- Whether some slot is Pending (the quantity `any_pending` mirrors). -/
def anyPendingSlot (queue : List (Option QQAlarm)) : Bool :=
  queue.any (fun s =>
    match s with
    | some a => decide (a.state = QQAlarmState.Pending)
    | none => false)

/-- The multiplexer invariant as claim C2 states it, with the comparator
*equal* to `next_wakeup` whenever the latter is `Some`. -/
def InvClaimC2 (q : DumbQQAlarmQueue) : Prop :=
  q.nextWakeup = minWaiting q.queue ∧
  q.anyPending = anyPendingSlot q.queue ∧
  q.alarm.intEnabled = q.nextWakeup.isSome ∧
  (∀ t, q.nextWakeup = some t → q.alarm.target = t)

/-- The amended multiplexer invariant: as `InvClaimC2` but the comparator is
only guaranteed to be programmed *at or after* `next_wakeup`, because `update`
programs `max(now + 250, next_wakeup)`. -/
def Inv (q : DumbQQAlarmQueue) : Prop :=
  q.nextWakeup = minWaiting q.queue ∧
  q.anyPending = anyPendingSlot q.queue ∧
  q.alarm.intEnabled = q.nextWakeup.isSome ∧
  (∀ t, q.nextWakeup = some t → t ≤ q.alarm.target)

end DumbQQAlarmQueue

/-- Contribution of one slot to a `minWakeFold`: the `wake_at` it feeds into
the accumulator, if any. -/
def slotContrib (p : QQAlarm → Bool) (s : Option QQAlarm) : Option Nat :=
  match s with
  | some a => if p a then some a.wakeAt else none
  | none => none

theorem minWakeFold_cons (p : QQAlarm → Bool) (s : Option QQAlarm)
    (l : List (Option QQAlarm)) (acc : Option Nat) :
    minWakeFold p (s :: l) acc =
      minWakeFold p l
        (match slotContrib p s with
          | some w => minAcc acc w
          | none => acc) := by
  cases s with
  | none => rfl
  | some a => by_cases h : p a = true <;> simp [minWakeFold, slotContrib, h]

theorem minAcc_right_comm (acc : Option Nat) (w w' : Nat) :
    minAcc (minAcc acc w) w' = minAcc (minAcc acc w') w := by
  cases acc <;> simp [minAcc] <;> omega

theorem minWakeFold_minAcc (p : QQAlarm → Bool) (l : List (Option QQAlarm)) (acc : Option Nat)
    (w : Nat) : minWakeFold p l (minAcc acc w) = minAcc (minWakeFold p l acc) w := by
  induction l generalizing acc with
  | nil => rfl
  | cons s l ih =>
    rw [minWakeFold_cons, minWakeFold_cons]
    cases h : slotContrib p s with
    | none => simp only [h]; exact ih acc
    | some w' => simp only [h]; rw [minAcc_right_comm]; exact ih _

theorem minWakeFold_map (p q' : QQAlarm → Bool) (f : Option QQAlarm → Option QQAlarm)
    (l : List (Option QQAlarm)) (acc : Option Nat)
    (h : ∀ s, slotContrib p (f s) = slotContrib q' s) :
    minWakeFold p (l.map f) acc = minWakeFold q' l acc := by
  induction l generalizing acc with
  | nil => rfl
  | cons s l ih =>
    rw [List.map_cons, minWakeFold_cons, minWakeFold_cons, h s]
    exact ih _

theorem minWakeFold_isSome (p : QQAlarm → Bool) (l : List (Option QQAlarm)) (acc : Option Nat) :
    (minWakeFold p l acc).isSome =
      (acc.isSome || l.any (fun s => (slotContrib p s).isSome)) := by
  induction l generalizing acc with
  | nil => simp [minWakeFold]
  | cons s l ih =>
    rw [minWakeFold_cons]
    cases h : slotContrib p s with
    | none => simp [h, ih acc]
    | some w => simp [h, ih, minAcc]

theorem minWakeFold_set (p : QQAlarm → Bool) (l : List (Option QQAlarm)) (i : Nat) (a : QQAlarm)
    (acc : Option Nat) (hi : l[i]? = some none) (hp : p a = true) :
    minWakeFold p (l.set i (some a)) acc = minAcc (minWakeFold p l acc) a.wakeAt := by
  induction l generalizing i acc with
  | nil => simp at hi
  | cons s l ih =>
    cases i with
    | zero =>
      obtain rfl : s = none := by simpa using hi
      rw [List.set_cons_zero, minWakeFold_cons, minWakeFold_cons]
      simp only [slotContrib, hp, if_true]
      exact minWakeFold_minAcc p l acc a.wakeAt
    | succ i =>
      rw [List.set_cons_succ, minWakeFold_cons, minWakeFold_cons]
      exact ih i _ (by simpa using hi)

/-- `List.any` is unchanged by overwriting a position with a value of the same
predicate status. -/
theorem any_set_eq {β : Type} (l : List β) (i : Nat) (x y : β) (f : β → Bool)
    (hi : l[i]? = some y) (hxy : f x = f y) :
    (l.set i x).any f = l.any f := by
  induction l generalizing i with
  | nil => simp at hi
  | cons s l ih =>
    cases i with
    | zero =>
      obtain rfl : s = y := by simpa using hi
      simp [hxy]
    | succ i => simp [ih i (by simpa using hi)]

/-- Pointwise congruence for `List.any`. -/
theorem any_congr_eq {β : Type} (l : List β) (p q' : β → Bool) (h : ∀ x ∈ l, p x = q' x) :
    l.any p = l.any q' := by
  induction l with
  | nil => rfl
  | cons s l ih =>
    simp only [List.any_cons, h s (by simp)]
    rw [ih (fun x hx => h x (by simp [hx]))]

namespace DumbQQAlarmQueue

theorem slotContrib_mark (now : Nat) (s : Option QQAlarm) :
    slotContrib (fun a => decide (a.state = QQAlarmState.Waiting))
      ((fun s =>
        match s with
        | some a =>
          if a.state = QQAlarmState.Waiting ∧ a.wakeAt ≤ now
            then some { a with state := QQAlarmState.Pending } else some a
        | none => none) s) =
    slotContrib (fun a => decide (a.state = QQAlarmState.Waiting) && !decide (a.wakeAt ≤ now))
      s := by
  cases s with
  | none => rfl
  | some a =>
    by_cases hw : a.state = QQAlarmState.Waiting
    · by_cases hn : a.wakeAt ≤ now <;> simp [slotContrib, hw, hn]
    · simp [slotContrib, hw]

theorem minWaiting_markPending (l : List (Option QQAlarm)) (now : Nat) :
    minWaiting (markPending l now) = minWaitingAbove l now :=
  minWakeFold_map _ _ _ l none (slotContrib_mark now)

theorem anyPendingSlot_markPending (l : List (Option QQAlarm)) (now : Nat) :
    anyPendingSlot (markPending l now) = (anyPendingSlot l || anyNewlyPending l now) := by
  induction l with
  | nil => rfl
  | cons s l ih =>
    have hcons : anyPendingSlot (markPending (s :: l) now) =
        ((match s with
          | some a =>
            if a.state = QQAlarmState.Waiting ∧ a.wakeAt ≤ now then true
            else decide (a.state = QQAlarmState.Pending)
          | none => false) || anyPendingSlot (markPending l now)) := by
      cases s with
      | none => simp [markPending, anyPendingSlot]
      | some a =>
        by_cases hw : a.state = QQAlarmState.Waiting ∧ a.wakeAt ≤ now <;>
          simp [markPending, anyPendingSlot, hw]
    rw [hcons, ih]
    cases s with
    | none => simp [anyPendingSlot, anyNewlyPending]
    | some a =>
      by_cases hw : a.state = QQAlarmState.Waiting ∧ a.wakeAt ≤ now
      · simp [anyPendingSlot, anyNewlyPending, hw, Bool.or_assoc]
      · have hb : (decide (a.state = QQAlarmState.Waiting) && decide (a.wakeAt ≤ now)) = false := by
          by_cases h1 : a.state = QQAlarmState.Waiting <;> by_cases h2 : a.wakeAt ≤ now <;>
            simp_all
        simp [anyPendingSlot, anyNewlyPending, hw, hb, Bool.or_assoc]

theorem slotContrib_clear (id : Nat) (s : Option QQAlarm) :
    slotContrib (fun a => decide (a.state = QQAlarmState.Waiting))
      ((fun s =>
        match s with
        | some a => if a.id = id then none else some a
        | none => none) s) =
    slotContrib (fun a => !decide (a.id = id) && decide (a.state = QQAlarmState.Waiting)) s := by
  cases s with
  | none => rfl
  | some a =>
    by_cases hid : a.id = id
    · simp [slotContrib, hid]
    · by_cases hw : a.state = QQAlarmState.Waiting <;> simp [slotContrib, hid, hw]

theorem minWaiting_clearId (l : List (Option QQAlarm)) (id : Nat) :
    minWaiting (clearId l id) = minWaitingExcept l id :=
  minWakeFold_map _ _ _ l none (slotContrib_clear id)

theorem anyPendingSlot_clearId (l : List (Option QQAlarm)) (id : Nat) :
    anyPendingSlot (clearId l id) = anyPendingExcept l id := by
  unfold anyPendingSlot clearId anyPendingExcept
  rw [List.any_map]
  apply any_congr_eq
  intro s _
  cases s with
  | none => rfl
  | some a =>
    by_cases hid : a.id = id
    · simp [Function.comp, hid]
    · simp [Function.comp, hid]

theorem slotContrib_consume (s : Option QQAlarm) :
    slotContrib (fun a => decide (a.state = QQAlarmState.Waiting))
      ((fun s =>
        match s with
        | some a => if a.state = QQAlarmState.Pending then none else some a
        | none => none) s) =
    slotContrib (fun a => decide (a.state = QQAlarmState.Waiting)) s := by
  cases s with
  | none => rfl
  | some a =>
    by_cases hp : a.state = QQAlarmState.Pending
    · simp [slotContrib, hp]
    · simp [slotContrib, hp]

theorem minWaiting_consume (l : List (Option QQAlarm)) :
    minWaiting (l.map (fun s =>
      match s with
      | some a => if a.state = QQAlarmState.Pending then none else some a
      | none => none)) = minWaiting l :=
  minWakeFold_map _ _ _ l none slotContrib_consume

theorem anyPendingSlot_consume (l : List (Option QQAlarm)) :
    anyPendingSlot (l.map (fun s =>
      match s with
      | some a => if a.state = QQAlarmState.Pending then none else some a
      | none => none)) = false := by
  unfold anyPendingSlot
  rw [List.any_map, List.any_eq_false]
  intro s _
  cases s with
  | none => simp [Function.comp]
  | some a => by_cases hp : a.state = QQAlarmState.Pending <;> simp [Function.comp, hp]

theorem minWakeFold_isSome_mono (p q' : QQAlarm → Bool) (l : List (Option QQAlarm))
    (hpq : ∀ a, p a = true → q' a = true) (h : (minWakeFold p l none).isSome = true) :
    (minWakeFold q' l none).isSome = true := by
  rw [minWakeFold_isSome] at h ⊢
  simp only [Option.isSome_none, Bool.false_or] at h ⊢
  rw [List.any_eq_true] at h ⊢
  obtain ⟨s, hs, hc⟩ := h
  refine ⟨s, hs, ?_⟩
  cases s with
  | none => simp [slotContrib] at hc
  | some a =>
    by_cases hp : p a = true
    · simp [slotContrib, hpq a hp]
    · simp [slotContrib, hp] at hc

theorem minWaiting_replicate_none (N : Nat) :
    minWaiting (List.replicate N (none : Option QQAlarm)) = none := by
  induction N with
  | zero => rfl
  | succ n ih => simpa [List.replicate_succ, minWaiting, minWakeFold_cons, slotContrib] using ih

theorem anyPendingSlot_replicate_none (N : Nat) :
    anyPendingSlot (List.replicate N (none : Option QQAlarm)) = false := by
  rw [anyPendingSlot, List.any_eq_false]
  intro s hs
  rw [List.eq_of_mem_replicate hs]
  simp

theorem new_inv (N t0 : Nat) : (new N t0).Inv := by
  refine ⟨?_, ?_, rfl, ?_⟩
  · exact (minWaiting_replicate_none N).symm
  · exact (anyPendingSlot_replicate_none N).symm
  · intro t ht
    simp [new] at ht

theorem add_eq_full (q : DumbQQAlarmQueue) (w : Nat)
    (hf : q.queue.findIdx? (fun s => s.isNone) = none) :
    q.add w = (⟨q.alarm, q.queue, q.nextWakeup, q.nextId + 1, q.anyPending⟩,
      .error .QueueFull) := by
  simp [add, hf]

theorem add_eq_some_none (q : DumbQQAlarmQueue) (w i : Nat)
    (hf : q.queue.findIdx? (fun s => s.isNone) = some i) (hnw : q.nextWakeup = none) :
    q.add w = (⟨⟨w, true⟩, q.queue.set i (some ⟨q.nextId, w, .Waiting⟩), some w,
      q.nextId + 1, q.anyPending⟩, .ok q.nextId) := by
  simp [add, hf, hnw]

theorem add_eq_some_lt (q : DumbQQAlarmQueue) (w i nw : Nat)
    (hf : q.queue.findIdx? (fun s => s.isNone) = some i) (hnw : q.nextWakeup = some nw)
    (hlt : w < nw) :
    q.add w = (⟨⟨w, q.alarm.intEnabled⟩, q.queue.set i (some ⟨q.nextId, w, .Waiting⟩), some w,
      q.nextId + 1, q.anyPending⟩, .ok q.nextId) := by
  simp [add, hf, hnw, hlt]

theorem add_eq_some_ge (q : DumbQQAlarmQueue) (w i nw : Nat)
    (hf : q.queue.findIdx? (fun s => s.isNone) = some i) (hnw : q.nextWakeup = some nw)
    (hge : ¬ w < nw) :
    q.add w = (⟨q.alarm, q.queue.set i (some ⟨q.nextId, w, .Waiting⟩), some nw,
      q.nextId + 1, q.anyPending⟩, .ok q.nextId) := by
  simp [add, hf, hnw, hge]

theorem findIdx_isNone_getElem (l : List (Option QQAlarm)) (i : Nat)
    (hf : l.findIdx? (fun s => s.isNone) = some i) : l[i]? = some none := by
  obtain ⟨hlt, hp, -⟩ := List.findIdx?_eq_some_iff_getElem.mp hf
  rw [List.getElem?_eq_getElem hlt]
  cases hq : l[i] with
  | none => rfl
  | some a => rw [hq] at hp; simp at hp

theorem add_inv (q : DumbQQAlarmQueue) (w : Nat) (h : q.Inv) : ((q.add w).1).Inv := by
  obtain ⟨h1, h2, h3, h4⟩ := h
  cases hf : q.queue.findIdx? (fun s => s.isNone) with
  | none =>
    rw [add_eq_full q w hf]
    exact ⟨h1, h2, h3, h4⟩
  | some i =>
    have hq : q.queue[i]? = some none := findIdx_isNone_getElem q.queue i hf
    have hset : minWaiting (q.queue.set i (some ⟨q.nextId, w, QQAlarmState.Waiting⟩)) =
        minAcc (minWaiting q.queue) w := by
      have := minWakeFold_set (fun a => decide (a.state = QQAlarmState.Waiting)) q.queue i
        ⟨q.nextId, w, QQAlarmState.Waiting⟩ none hq (by simp)
      simpa [minWaiting] using this
    have hany : anyPendingSlot (q.queue.set i (some ⟨q.nextId, w, QQAlarmState.Waiting⟩)) =
        anyPendingSlot q.queue := by
      unfold anyPendingSlot
      exact any_set_eq _ _ _ none _ hq (by simp)
    cases hnw : q.nextWakeup with
    | none =>
      rw [add_eq_some_none q w i hf hnw]
      have hmq : minWaiting q.queue = none := by rw [← h1, hnw]
      refine ⟨?_, ?_, rfl, ?_⟩
      · show some w = minWaiting (q.queue.set i (some ⟨q.nextId, w, QQAlarmState.Waiting⟩))
        rw [hset, hmq]
        rfl
      · show q.anyPending =
          anyPendingSlot (q.queue.set i (some ⟨q.nextId, w, QQAlarmState.Waiting⟩))
        rw [hany]
        exact h2
      · intro t ht
        injection ht with ht
        show t ≤ w
        omega
    | some nw =>
      have hmq : minWaiting q.queue = some nw := by rw [← h1, hnw]
      by_cases hlt : w < nw
      · rw [add_eq_some_lt q w i nw hf hnw hlt]
        refine ⟨?_, ?_, ?_, ?_⟩
        · show some w = minWaiting (q.queue.set i (some ⟨q.nextId, w, QQAlarmState.Waiting⟩))
          rw [hset, hmq]
          simp [minAcc]
          omega
        · show q.anyPending =
            anyPendingSlot (q.queue.set i (some ⟨q.nextId, w, QQAlarmState.Waiting⟩))
          rw [hany]
          exact h2
        · show q.alarm.intEnabled = true
          rw [h3, hnw]
          rfl
        · intro t ht
          injection ht with ht
          show t ≤ w
          omega
      · rw [add_eq_some_ge q w i nw hf hnw hlt]
        refine ⟨?_, ?_, ?_, ?_⟩
        · show some nw = minWaiting (q.queue.set i (some ⟨q.nextId, w, QQAlarmState.Waiting⟩))
          rw [hset, hmq]
          simp [minAcc]
          omega
        · show q.anyPending =
            anyPendingSlot (q.queue.set i (some ⟨q.nextId, w, QQAlarmState.Waiting⟩))
          rw [hany]
          exact h2
        · show q.alarm.intEnabled = true
          rw [h3, hnw]
          rfl
        · intro t ht
          injection ht with ht
          subst ht
          exact h4 nw hnw

theorem update_eq_false (q : DumbQQAlarmQueue) (now now2 : Nat) :
    q.update false now now2 = (q, false) := rfl

theorem update_eq_some (q : DumbQQAlarmQueue) (now now2 m : Nat)
    (hm : minWaitingAbove q.queue now = some m) :
    q.update true now now2 =
      (⟨⟨max (now2 + 250) m, q.alarm.intEnabled⟩, markPending q.queue now, some m, q.nextId,
        q.anyPending || anyNewlyPending q.queue now⟩, true) := by
  simp [update, hm]

theorem update_eq_none (q : DumbQQAlarmQueue) (now now2 : Nat)
    (hm : minWaitingAbove q.queue now = none) :
    q.update true now now2 =
      (⟨⟨q.alarm.target, false⟩, markPending q.queue now, none, q.nextId,
        q.anyPending || anyNewlyPending q.queue now⟩, true) := by
  simp [update, hm]

theorem update_inv (q : DumbQQAlarmQueue) (b : Bool) (now now2 : Nat) (h : q.Inv) :
    ((q.update b now now2).1).Inv := by
  obtain ⟨h1, h2, h3, h4⟩ := h
  cases b with
  | false => exact ⟨h1, h2, h3, h4⟩
  | true =>
    cases hm : minWaitingAbove q.queue now with
    | some m =>
      have hw : (minWaiting q.queue).isSome = true := by
        have habove : (minWaitingAbove q.queue now).isSome = true := by rw [hm]; rfl
        exact minWakeFold_isSome_mono _ _ q.queue
          (fun a ha => by simp only [Bool.and_eq_true] at ha; exact ha.1) habove
      have hqn : ∃ t, q.nextWakeup = some t := by
        rw [h1]
        cases hmw : minWaiting q.queue with
        | none => rw [hmw] at hw; simp at hw
        | some t => exact ⟨t, rfl⟩
      rw [update_eq_some q now now2 m hm]
      refine ⟨?_, ?_, ?_, ?_⟩
      · show some m = minWaiting (markPending q.queue now)
        rw [minWaiting_markPending, hm]
      · show (q.anyPending || anyNewlyPending q.queue now) =
          anyPendingSlot (markPending q.queue now)
        rw [anyPendingSlot_markPending, h2]
      · show q.alarm.intEnabled = true
        obtain ⟨t, ht⟩ := hqn
        rw [h3, ht]
        rfl
      · intro t ht
        injection ht with ht
        subst ht
        exact le_max_right _ _
    | none =>
      rw [update_eq_none q now now2 hm]
      refine ⟨?_, ?_, rfl, ?_⟩
      · show (none : Option Nat) = minWaiting (markPending q.queue now)
        rw [minWaiting_markPending, hm]
      · show (q.anyPending || anyNewlyPending q.queue now) =
          anyPendingSlot (markPending q.queue now)
        rw [anyPendingSlot_markPending, h2]
      · intro t ht
        exact Option.noConfusion ht

theorem consumePending_eq_false (q : DumbQQAlarmQueue) (h : q.anyPending = false) :
    q.consumePending = (q, none) := by
  simp [consumePending, h]

theorem consumePending_eq_true (q : DumbQQAlarmQueue) (h : q.anyPending = true) :
    q.consumePending =
      (⟨q.alarm, q.queue.map (fun s =>
          match s with
          | some a => if a.state = QQAlarmState.Pending then none else some a
          | none => none), q.nextWakeup, q.nextId, false⟩,
       some (q.queue.filterMap (fun s =>
          match s with
          | some a => if a.state = QQAlarmState.Pending then some a.id else none
          | none => none))) := by
  simp [consumePending, h]

theorem consume_inv (q : DumbQQAlarmQueue) (h : q.Inv) : (q.consumePending.1).Inv := by
  obtain ⟨h1, h2, h3, h4⟩ := h
  cases hap : q.anyPending with
  | false => rw [consumePending_eq_false q hap]; exact ⟨h1, h2, h3, h4⟩
  | true =>
    rw [consumePending_eq_true q hap]
    refine ⟨?_, ?_, h3, h4⟩
    · show q.nextWakeup = _
      rw [minWaiting_consume]
      exact h1
    · show (false : Bool) = _
      rw [anyPendingSlot_consume]

theorem remove_eq_notfound (q : DumbQQAlarmQueue) (id : Nat)
    (hnf : idFound q.queue id = false) :
    q.remove id = some (q, .error .IdNotFound) := by
  simp [remove, hnf]

theorem remove_eq_none_some (q : DumbQQAlarmQueue) (id : Nat)
    (hf : idFound q.queue id = true) (hm : minWaitingExcept q.queue id = none)
    (hnw : q.nextWakeup.isSome = true) :
    q.remove id = some (⟨⟨q.alarm.target, false⟩, clearId q.queue id, none, q.nextId,
      anyPendingExcept q.queue id⟩, .ok ()) := by
  simp [remove, hf, hm, hnw]

theorem remove_eq_none_none (q : DumbQQAlarmQueue) (id : Nat)
    (hf : idFound q.queue id = true) (hm : minWaitingExcept q.queue id = none)
    (hnw : q.nextWakeup.isSome = false) :
    q.remove id = some (⟨q.alarm, clearId q.queue id, q.nextWakeup, q.nextId,
      anyPendingExcept q.queue id⟩, .ok ()) := by
  simp [remove, hf, hm, hnw]

theorem remove_eq_some_panic (q : DumbQQAlarmQueue) (id m : Nat)
    (hf : idFound q.queue id = true) (hm : minWaitingExcept q.queue id = some m)
    (hnw : q.nextWakeup = none) :
    q.remove id = none := by
  simp [remove, hf, hm, hnw]

theorem remove_eq_some_ne (q : DumbQQAlarmQueue) (id m nw : Nat)
    (hf : idFound q.queue id = true) (hm : minWaitingExcept q.queue id = some m)
    (hnw : q.nextWakeup = some nw) (hne : m ≠ nw) :
    q.remove id = some (⟨⟨m, q.alarm.intEnabled⟩, clearId q.queue id, some m, q.nextId,
      anyPendingExcept q.queue id⟩, .ok ()) := by
  simp [remove, hf, hm, hnw, hne]

theorem remove_eq_some_eq (q : DumbQQAlarmQueue) (id m nw : Nat)
    (hf : idFound q.queue id = true) (hm : minWaitingExcept q.queue id = some m)
    (hnw : q.nextWakeup = some nw) (heq : m = nw) :
    q.remove id = some (⟨q.alarm, clearId q.queue id, some nw, q.nextId,
      anyPendingExcept q.queue id⟩, .ok ()) := by
  simp [remove, hf, hm, hnw, heq]

theorem remove_inv (q : DumbQQAlarmQueue) (id : Nat) (h : q.Inv) :
    ∀ r, q.remove id = some r → r.1.Inv := by
  obtain ⟨h1, h2, h3, h4⟩ := h
  intro r hr
  cases hnf : idFound q.queue id with
  | false =>
    rw [remove_eq_notfound q id hnf] at hr
    injection hr with hr
    subst hr
    exact ⟨h1, h2, h3, h4⟩
  | true =>
    cases hm : minWaitingExcept q.queue id with
    | none =>
      cases hnw : q.nextWakeup.isSome with
      | true =>
        rw [remove_eq_none_some q id hnf hm hnw] at hr
        injection hr with hr
        subst hr
        refine ⟨?_, ?_, rfl, ?_⟩
        · show (none : Option Nat) = minWaiting (clearId q.queue id)
          rw [minWaiting_clearId, hm]
        · show anyPendingExcept q.queue id = anyPendingSlot (clearId q.queue id)
          rw [anyPendingSlot_clearId]
        · intro t ht
          exact Option.noConfusion ht
      | false =>
        rw [remove_eq_none_none q id hnf hm hnw] at hr
        injection hr with hr
        subst hr
        have hqnone : q.nextWakeup = none := by
          cases hq : q.nextWakeup with
          | none => rfl
          | some t => rw [hq] at hnw; simp at hnw
        refine ⟨?_, ?_, h3, h4⟩
        · show q.nextWakeup = minWaiting (clearId q.queue id)
          rw [minWaiting_clearId, hm, hqnone]
        · show anyPendingExcept q.queue id = anyPendingSlot (clearId q.queue id)
          rw [anyPendingSlot_clearId]
    | some m =>
      have hqs : (minWaiting q.queue).isSome = true := by
        have hexc : (minWaitingExcept q.queue id).isSome = true := by rw [hm]; rfl
        exact minWakeFold_isSome_mono _ _ q.queue
          (fun a ha => by simp only [Bool.and_eq_true] at ha; exact ha.2) hexc
      have hnws : ∃ nw, q.nextWakeup = some nw := by
        rw [h1]
        cases hmw : minWaiting q.queue with
        | none => rw [hmw] at hqs; simp at hqs
        | some t => exact ⟨t, rfl⟩
      obtain ⟨nw, hnw⟩ := hnws
      by_cases hne : m = nw
      · rw [remove_eq_some_eq q id m nw hnf hm hnw hne] at hr
        injection hr with hr
        subst hr
        refine ⟨?_, ?_, ?_, ?_⟩
        · show some nw = minWaiting (clearId q.queue id)
          rw [minWaiting_clearId, hm, hne]
        · show anyPendingExcept q.queue id = anyPendingSlot (clearId q.queue id)
          rw [anyPendingSlot_clearId]
        · show q.alarm.intEnabled = true
          rw [h3, hnw]
          rfl
        · intro t ht
          injection ht with ht
          subst ht
          exact h4 nw hnw
      · rw [remove_eq_some_ne q id m nw hnf hm hnw hne] at hr
        injection hr with hr
        subst hr
        refine ⟨?_, ?_, ?_, ?_⟩
        · show some m = minWaiting (clearId q.queue id)
          rw [minWaiting_clearId, hm]
        · show anyPendingExcept q.queue id = anyPendingSlot (clearId q.queue id)
          rw [anyPendingSlot_clearId]
        · show q.alarm.intEnabled = true
          rw [h3, hnw]
          rfl
        · intro t ht
          injection ht with ht
          show t ≤ m
          omega

theorem applyOp_inv (q : DumbQQAlarmQueue) (op : QQOp) (h : q.Inv) :
    ∀ q', q.applyOp op = some q' → q'.Inv := by
  intro q' hq'
  cases op with
  | add w =>
    injection hq' with hq'
    subst hq'
    exact add_inv q w h
  | remove id =>
    simp only [applyOp, Option.map_eq_some'] at hq'
    obtain ⟨r, hr, hr2⟩ := hq'
    subst hr2
    exact remove_inv q id h r hr
  | update b n n2 =>
    injection hq' with hq'
    subst hq'
    exact update_inv q b n n2 h
  | consume =>
    injection hq' with hq'
    subst hq'
    exact consume_inv q h

theorem runOps_inv (ops : List QQOp) (q : DumbQQAlarmQueue) (h : q.Inv) :
    ∀ q', q.runOps ops = some q' → q'.Inv := by
  induction ops generalizing q with
  | nil =>
    intro q' hq'
    injection hq' with hq'
    subst hq'
    exact h
  | cons op ops ih =>
    intro q' hq'
    rw [runOps, List.foldlM_cons] at hq'
    cases hstep : q.applyOp op with
    | none => rw [hstep] at hq'; simp at hq'
    | some q1 =>
      rw [hstep] at hq'
      exact ih q1 (applyOp_inv q op h q1 hstep) q' hq'

end DumbQQAlarmQueue

/-- **C2, counterexample.** The claimed invariant requires the hardware
comparator to equal `next_wakeup` whenever the latter is `Some`, after every
add, remove and hardware-alarm handling.  The reachable state after `add 300`
followed by handling a hardware alarm interrupt at `now = 0` (second time read
100) has `next_wakeup = 300` but comparator target `max(100 + 250, 300) =
350`, because `update` programs `max(now + 250, min_wake_at)`. -/
theorem c2_comparator_counterexample :
    DumbQQAlarmQueue.runOps (DumbQQAlarmQueue.new 1 0) [QQOp.add 300, QQOp.update true 0 100] =
      some ⟨⟨350, true⟩, [some ⟨0, 300, QQAlarmState.Waiting⟩], some 300, 1, false⟩ ∧
    ¬ DumbQQAlarmQueue.InvClaimC2
        ⟨⟨350, true⟩, [some ⟨0, 300, QQAlarmState.Waiting⟩], some 300, 1, false⟩ := by
  constructor
  · rfl
  · intro hinv
    have h := hinv.2.2.2 300 rfl
    exact absurd h (by decide)

/-- **C2, amended.** For every state reachable by any sequence of `add`,
`remove`, hardware-alarm handling (`update`) and fully-drained
`consume_pending`: the cached `next_wakeup` equals the minimum `wake_at` among
Waiting slots (`None` when no Waiting slot exists), `any_pending` is true iff
some slot is Pending, the hardware alarm interrupt enable is false exactly
when `next_wakeup` is `None`, and the comparator is programmed to a tick at or
after `next_wakeup` whenever `next_wakeup` is `Some` (it equals `next_wakeup`
when last programmed by `add` or `remove`; `update` programs
`max(now + 250, next_wakeup)` as a hardware guard). -/
theorem c2_multiplexer_invariant (N t0 : Nat) (ops : List QQOp) (q : DumbQQAlarmQueue)
    (h : (DumbQQAlarmQueue.new N t0).runOps ops = some q) : q.Inv :=
  DumbQQAlarmQueue.runOps_inv ops (DumbQQAlarmQueue.new N t0)
    (DumbQQAlarmQueue.new_inv N t0) q h

/-- Closed instantiation of `c2_multiplexer_invariant` on the counterexample
run: the amended invariant does hold in that state. -/
theorem c2_multiplexer_invariant_witness :
    DumbQQAlarmQueue.Inv
      ⟨⟨350, true⟩, [some ⟨0, 300, QQAlarmState.Waiting⟩], some 300, 1, false⟩ :=
  c2_multiplexer_invariant 1 0 [QQOp.add 300, QQOp.update true 0 100] _ rfl

namespace DumbQQAlarmQueue

theorem add_snd_of_found (q : DumbQQAlarmQueue) (w i : Nat)
    (hf : q.queue.findIdx? (fun s => s.isNone) = some i) : (q.add w).2 = .ok q.nextId := by
  cases hnw : q.nextWakeup with
  | none => rw [add_eq_some_none q w i hf hnw]
  | some nw =>
    by_cases hlt : w < nw
    · rw [add_eq_some_lt q w i nw hf hnw hlt]
    · rw [add_eq_some_ge q w i nw hf hnw hlt]

theorem add_ok_id (q : DumbQQAlarmQueue) (w : Nat) (id' : Nat)
    (h : (q.add w).2 = .ok id') : id' = q.nextId := by
  cases hf : q.queue.findIdx? (fun s => s.isNone) with
  | none => rw [add_eq_full q w hf] at h; exact absurd h (by simp)
  | some i =>
    rw [add_snd_of_found q w i hf] at h
    injection h with h
    exact h.symm

end DumbQQAlarmQueue

/-- **C6, counterexample.** The claim says a `remove` whose removed slot was
Waiting recomputes `next_wakeup` as the minimum over the remaining Waiting
slots and reprograms the comparator accordingly.  In the reachable state after
`add 300`, `add 305`, hardware-alarm handling at `now = 302` (second time read
303) and `add 400`, the comparator holds the guard value
`max(303 + 250, 305) = 553`; removing the Waiting slot with id 2
(`wake_at = 400`) returns `Ok` and recomputes the minimum 305, but the code
skips `set_target` because that minimum equals the cached `next_wakeup`, so
the comparator stays at 553 instead of being programmed to the recomputed
minimum 305. -/
theorem c6_remove_comparator_counterexample :
    DumbQQAlarmQueue.runOps (DumbQQAlarmQueue.new 3 0)
      [QQOp.add 300, QQOp.add 305, QQOp.update true 302 303, QQOp.add 400] =
      some ⟨⟨553, true⟩, [some ⟨0, 300, QQAlarmState.Pending⟩,
        some ⟨1, 305, QQAlarmState.Waiting⟩, some ⟨2, 400, QQAlarmState.Waiting⟩],
        some 305, 3, true⟩ ∧
    (⟨⟨553, true⟩, [some ⟨0, 300, QQAlarmState.Pending⟩,
        some ⟨1, 305, QQAlarmState.Waiting⟩, some ⟨2, 400, QQAlarmState.Waiting⟩],
        some 305, 3, true⟩ : DumbQQAlarmQueue).queue[2]? =
      some (some ⟨2, 400, QQAlarmState.Waiting⟩) ∧
    (⟨⟨553, true⟩, [some ⟨0, 300, QQAlarmState.Pending⟩,
        some ⟨1, 305, QQAlarmState.Waiting⟩, some ⟨2, 400, QQAlarmState.Waiting⟩],
        some 305, 3, true⟩ : DumbQQAlarmQueue).remove 2 =
      some (⟨⟨553, true⟩, [some ⟨0, 300, QQAlarmState.Pending⟩,
        some ⟨1, 305, QQAlarmState.Waiting⟩, none], some 305, 3, true⟩, .ok ()) ∧
    DumbQQAlarmQueue.minWaiting [some ⟨0, 300, QQAlarmState.Pending⟩,
      some ⟨1, 305, QQAlarmState.Waiting⟩, none] = some 305 ∧
    (553 : Nat) ≠ 305 := by
  refine ⟨rfl, rfl, rfl, rfl, by decide⟩

/-- **C6, amended.** `remove(id)`: when no slot carries `id` it returns
`IdNotFound` leaving the state untouched; when a slot carries `id` it clears
exactly that slot, returns `Ok` and recomputes `next_wakeup` as the minimum
`wake_at` over the remaining Waiting slots; it reprograms the comparator to
that minimum whenever the minimum differs from the previous `next_wakeup` —
when the two are equal the comparator keeps its previous value, which can be
a later tick left by the `now + 250` guard of hardware-alarm handling, though
always at or after `next_wakeup` — and it disables the alarm interrupt when
no Waiting slot remains.  The hypothesis is the reachable-state invariant
`Inv`.  Scenario: on a fresh capacity-3 multiplexer, `add 10` returns id 0,
`add 5` id 1, `add 20` id 2, the comparator target is then 5; `remove 1`
succeeds and the comparator target is recomputed to 10. -/
theorem c6_remove_semantics_amended (q : DumbQQAlarmQueue) (id : Nat) (h : q.Inv) :
    (DumbQQAlarmQueue.idFound q.queue id = false →
      q.remove id = some (q, .error .IdNotFound)) ∧
    (DumbQQAlarmQueue.idFound q.queue id = true →
      ∃ q', q.remove id = some (q', .ok ()) ∧
        q'.queue = DumbQQAlarmQueue.clearId q.queue id ∧
        q'.nextWakeup = DumbQQAlarmQueue.minWaiting q'.queue ∧
        (∀ t, q'.nextWakeup = some t → q.nextWakeup ≠ some t → q'.alarm.target = t) ∧
        (∀ t, q'.nextWakeup = some t → t ≤ q'.alarm.target) ∧
        (q'.nextWakeup = none → q'.alarm.intEnabled = false)) ∧
    ((DumbQQAlarmQueue.new 3 0).add 10).2 = .ok 0 ∧
    ((((DumbQQAlarmQueue.new 3 0).add 10).1.add 5).2 = .ok 1) ∧
    (((((DumbQQAlarmQueue.new 3 0).add 10).1.add 5).1.add 20).2 = .ok 2) ∧
    (((((DumbQQAlarmQueue.new 3 0).add 10).1.add 5).1.add 20).1.alarm.target = 5) ∧
    (∃ qr, ((((DumbQQAlarmQueue.new 3 0).add 10).1.add 5).1.add 20).1.remove 1 =
      some (qr, .ok ()) ∧ qr.alarm.target = 10) := by
  obtain ⟨h1, h2, h3, h4⟩ := h
  refine ⟨?_, ?_, rfl, rfl, rfl, rfl, ⟨_, rfl, rfl⟩⟩
  · intro hnf
    exact DumbQQAlarmQueue.remove_eq_notfound q id hnf
  · intro hf
    cases hm : DumbQQAlarmQueue.minWaitingExcept q.queue id with
    | none =>
      cases hnw : q.nextWakeup.isSome with
      | true =>
        refine ⟨_, DumbQQAlarmQueue.remove_eq_none_some q id hf hm hnw, rfl, ?_, ?_, ?_, ?_⟩
        · show (none : Option Nat) = _
          rw [DumbQQAlarmQueue.minWaiting_clearId, hm]
        · intro t ht
          exact Option.noConfusion ht
        · intro t ht
          exact Option.noConfusion ht
        · intro _
          rfl
      | false =>
        have hqnone : q.nextWakeup = none := by
          cases hq : q.nextWakeup with
          | none => rfl
          | some t => rw [hq] at hnw; simp at hnw
        refine ⟨_, DumbQQAlarmQueue.remove_eq_none_none q id hf hm hnw, rfl, ?_, ?_, ?_, ?_⟩
        · show q.nextWakeup = _
          rw [DumbQQAlarmQueue.minWaiting_clearId, hm, hqnone]
        · intro t ht
          rw [hqnone] at ht
          exact Option.noConfusion ht
        · intro t ht
          rw [hqnone] at ht
          exact Option.noConfusion ht
        · intro _
          show q.alarm.intEnabled = false
          rw [h3, hqnone]
          rfl
    | some m =>
      have hqs : (DumbQQAlarmQueue.minWaiting q.queue).isSome = true := by
        have hexc : (DumbQQAlarmQueue.minWaitingExcept q.queue id).isSome = true := by
          rw [hm]; rfl
        exact DumbQQAlarmQueue.minWakeFold_isSome_mono _ _ q.queue
          (fun a ha => by simp only [Bool.and_eq_true] at ha; exact ha.2) hexc
      have hnws : ∃ nw, q.nextWakeup = some nw := by
        rw [h1]
        cases hmw : DumbQQAlarmQueue.minWaiting q.queue with
        | none => rw [hmw] at hqs; simp at hqs
        | some t => exact ⟨t, rfl⟩
      obtain ⟨nw, hnw⟩ := hnws
      by_cases hne : m = nw
      · refine ⟨_, DumbQQAlarmQueue.remove_eq_some_eq q id m nw hf hm hnw hne, rfl,
          ?_, ?_, ?_, ?_⟩
        · show some nw = _
          rw [DumbQQAlarmQueue.minWaiting_clearId, hm, hne]
        · intro t ht hneq
          have htm : t = nw := (Option.some.inj ht).symm
          subst htm
          exact absurd hnw hneq
        · intro t ht
          have htm : t = nw := (Option.some.inj ht).symm
          subst htm
          exact h4 _ hnw
        · intro ht
          exact Option.noConfusion ht
      · refine ⟨_, DumbQQAlarmQueue.remove_eq_some_ne q id m nw hf hm hnw hne, rfl,
          ?_, ?_, ?_, ?_⟩
        · show some m = _
          rw [DumbQQAlarmQueue.minWaiting_clearId, hm]
        · intro t ht hneq
          have htm : t = m := (Option.some.inj ht).symm
          subst htm
          rfl
        · intro t ht
          have htm : t = m := (Option.some.inj ht).symm
          subst htm
          exact Nat.le_refl _
        · intro ht
          exact Option.noConfusion ht

/-- Closed instantiation of `c6_remove_semantics_amended` on the reachable
guard-clamped state of the counterexample run: removing an absent id (9)
reports `IdNotFound` unchanged. -/
theorem c6_remove_semantics_amended_witness :
    (⟨⟨553, true⟩, [some ⟨0, 300, QQAlarmState.Pending⟩,
        some ⟨1, 305, QQAlarmState.Waiting⟩, some ⟨2, 400, QQAlarmState.Waiting⟩],
        some 305, 3, true⟩ : DumbQQAlarmQueue).remove 9 =
      some (⟨⟨553, true⟩, [some ⟨0, 300, QQAlarmState.Pending⟩,
        some ⟨1, 305, QQAlarmState.Waiting⟩, some ⟨2, 400, QQAlarmState.Waiting⟩],
        some 305, 3, true⟩, .error .IdNotFound) :=
  (c6_remove_semantics_amended (⟨⟨553, true⟩, [some ⟨0, 300, QQAlarmState.Pending⟩,
      some ⟨1, 305, QQAlarmState.Waiting⟩, some ⟨2, 400, QQAlarmState.Waiting⟩],
      some 305, 3, true⟩ : DumbQQAlarmQueue) 9
    ⟨rfl, rfl, rfl, fun t ht => by
      have htm : t = 305 := (Option.some.inj ht).symm
      subst htm
      decide⟩).1 rfl

/-- **C10.** `add` fails with `QueueFull` iff every slot is occupied, and on
failure the slot array, `next_wakeup`, `any_pending` and the hardware alarm
are left completely unchanged while the internal id counter has nevertheless
been incremented; hence an immediately following successful `add` returns
`nextId + 1`, skipping the id value consumed by the failed call. -/
theorem c10_add_queuefull_frame (q : DumbQQAlarmQueue) (w w' : Nat) :
    ((q.add w).2 = .error .QueueFull ↔ ∀ s ∈ q.queue, s.isSome = true) ∧
    ((q.add w).2 = .error .QueueFull →
      (q.add w).1.queue = q.queue ∧ (q.add w).1.nextWakeup = q.nextWakeup ∧
      (q.add w).1.anyPending = q.anyPending ∧ (q.add w).1.alarm = q.alarm ∧
      (q.add w).1.nextId = q.nextId + 1) ∧
    ((q.add w).2 = .error .QueueFull → ∀ id', (((q.add w).1).add w').2 = .ok id' →
      id' = q.nextId + 1) := by
  have hiff : (q.add w).2 = .error .QueueFull ↔
      q.queue.findIdx? (fun s => s.isNone) = none := by
    constructor
    · intro h
      cases hf : q.queue.findIdx? (fun s => s.isNone) with
      | none => rfl
      | some i =>
        rw [DumbQQAlarmQueue.add_snd_of_found q w i hf] at h
        exact absurd h (by simp)
    · intro hf
      rw [DumbQQAlarmQueue.add_eq_full q w hf]
  refine ⟨?_, ?_, ?_⟩
  · rw [hiff, List.findIdx?_eq_none_iff]
    constructor
    · intro h s hs
      have hv := h s hs
      cases s with
      | none => simp at hv
      | some a => rfl
    · intro h s hs
      have hv := h s hs
      cases s with
      | none => simp at hv
      | some a => rfl
  · intro h
    rw [DumbQQAlarmQueue.add_eq_full q w (hiff.mp h)]
    exact ⟨rfl, rfl, rfl, rfl, rfl⟩
  · intro h id' hok
    have hid := DumbQQAlarmQueue.add_ok_id _ w' id' hok
    rw [hid, DumbQQAlarmQueue.add_eq_full q w (hiff.mp h)]

/-- Closed instantiation of `c10_add_queuefull_frame` on a full capacity-1
queue: the failed `add` leaves the slots untouched and bumps the id counter. -/
theorem c10_add_queuefull_frame_witness :
    ((⟨⟨5, true⟩, [some ⟨0, 5, QQAlarmState.Waiting⟩], some 5, 1, false⟩ :
        DumbQQAlarmQueue).add 7).1.nextId = 2 ∧
    ((⟨⟨5, true⟩, [some ⟨0, 5, QQAlarmState.Waiting⟩], some 5, 1, false⟩ :
        DumbQQAlarmQueue).add 7).1.queue = [some ⟨0, 5, QQAlarmState.Waiting⟩] :=
  ⟨((c10_add_queuefull_frame (⟨⟨5, true⟩, [some ⟨0, 5, QQAlarmState.Waiting⟩], some 5, 1,
        false⟩ : DumbQQAlarmQueue) 7 0).2.1 rfl).2.2.2.2,
   ((c10_add_queuefull_frame (⟨⟨5, true⟩, [some ⟨0, 5, QQAlarmState.Waiting⟩], some 5, 1,
        false⟩ : DumbQQAlarmQueue) 7 0).2.1 rfl).1⟩

namespace DumbQQAlarmQueue

/-- Ids held in the slot array, in slot order. -/
def slotIds (queue : List (Option QQAlarm)) : List Nat :=
  queue.filterMap (fun s =>
    match s with
    | some a => some a.id
    | none => none)

/-- Ids of the Pending slots, in slot order: what a fully-drained
`consume_pending` yields. -/
def pendingIds (queue : List (Option QQAlarm)) : List Nat :=
  queue.filterMap (fun s =>
    match s with
    | some a => if a.state = QQAlarmState.Pending then some a.id else none
    | none => none)

/-- Id-allocation invariant: every stored id is below the allocator counter,
and stored ids are pairwise distinct. -/
def IdInv (q : DumbQQAlarmQueue) : Prop :=
  (∀ i ∈ slotIds q.queue, i < q.nextId) ∧ (slotIds q.queue).Nodup

/-- A consumed (or never issued but bounded) id: below the counter and not
stored in any slot. -/
def NotIn (i : Nat) (q : DumbQQAlarmQueue) : Prop :=
  i < q.nextId ∧ i ∉ slotIds q.queue

theorem slotIds_set_perm (queue : List (Option QQAlarm)) (i : Nat) (a : QQAlarm)
    (hi : queue[i]? = some none) :
    (slotIds (queue.set i (some a))).Perm (a.id :: slotIds queue) := by
  induction queue generalizing i with
  | nil => simp at hi
  | cons s rest ih =>
    cases i with
    | zero =>
      obtain rfl : s = none := by simpa using hi
      exact List.Perm.refl _
    | succ i =>
      have hi' : rest[i]? = some none := by simpa using hi
      cases s with
      | none =>
        rw [List.set_cons_succ]
        exact ih i hi'
      | some b =>
        rw [List.set_cons_succ]
        show (b.id :: slotIds (rest.set i (some a))).Perm (a.id :: b.id :: slotIds rest)
        exact ((ih i hi').cons b.id).trans (List.Perm.swap a.id b.id _)

theorem slotIds_markPending (queue : List (Option QQAlarm)) (now : Nat) :
    slotIds (markPending queue now) = slotIds queue := by
  induction queue with
  | nil => rfl
  | cons s rest ih =>
    cases s with
    | none => simpa [slotIds, markPending] using ih
    | some a =>
      by_cases hw : a.state = QQAlarmState.Waiting ∧ a.wakeAt ≤ now <;>
        simp [slotIds, markPending, hw] <;> simpa [slotIds, markPending] using ih

theorem slotIds_clearId (queue : List (Option QQAlarm)) (id : Nat) :
    slotIds (clearId queue id) = (slotIds queue).filter (fun j => !decide (j = id)) := by
  induction queue with
  | nil => rfl
  | cons s rest ih =>
    cases s with
    | none => simpa [slotIds, clearId] using ih
    | some a =>
      by_cases hid : a.id = id
      · simpa [slotIds, clearId, hid, List.filter_cons] using ih
      · simpa [slotIds, clearId, hid, List.filter_cons] using ih

theorem pendingIds_sublist (queue : List (Option QQAlarm)) :
    (pendingIds queue).Sublist (slotIds queue) := by
  induction queue with
  | nil => exact List.Sublist.refl _
  | cons s rest ih =>
    cases s with
    | none => exact ih
    | some a =>
      by_cases hp : a.state = QQAlarmState.Pending
      · show (pendingIds (some a :: rest)).Sublist (a.id :: slotIds rest)
        have he : pendingIds (some a :: rest) = a.id :: pendingIds rest := by
          simp [pendingIds, hp]
        rw [he]
        exact ih.cons₂ a.id
      · have he : pendingIds (some a :: rest) = pendingIds rest := by
          simp [pendingIds, hp]
        rw [he]
        exact ih.cons a.id

theorem slotIds_consume_perm (queue : List (Option QQAlarm)) :
    (slotIds queue).Perm
      (pendingIds queue ++ slotIds (queue.map (fun s =>
        match s with
        | some a => if a.state = QQAlarmState.Pending then none else some a
        | none => none))) := by
  induction queue with
  | nil => exact List.Perm.refl _
  | cons s rest ih =>
    cases s with
    | none => exact ih
    | some a =>
      by_cases hp : a.state = QQAlarmState.Pending
      · have h1 : slotIds (some a :: rest) = a.id :: slotIds rest := rfl
        have h2 : pendingIds (some a :: rest) = a.id :: pendingIds rest := by
          simp [pendingIds, hp]
        have h3 : slotIds ((some a :: rest).map (fun s =>
            match s with
            | some a => if a.state = QQAlarmState.Pending then none else some a
            | none => none)) = slotIds (rest.map (fun s =>
            match s with
            | some a => if a.state = QQAlarmState.Pending then none else some a
            | none => none)) := by
          simp [slotIds, hp]
        rw [h1, h2, h3]
        exact ih.cons a.id
      · have h1 : slotIds (some a :: rest) = a.id :: slotIds rest := rfl
        have h2 : pendingIds (some a :: rest) = pendingIds rest := by
          simp [pendingIds, hp]
        have h3 : slotIds ((some a :: rest).map (fun s =>
            match s with
            | some a => if a.state = QQAlarmState.Pending then none else some a
            | none => none)) = a.id :: slotIds (rest.map (fun s =>
            match s with
            | some a => if a.state = QQAlarmState.Pending then none else some a
            | none => none)) := by
          simp [slotIds, hp]
        rw [h1, h2, h3]
        exact (ih.cons a.id).trans List.perm_middle.symm

theorem idFound_iff_mem (queue : List (Option QQAlarm)) (id : Nat) :
    idFound queue id = true ↔ id ∈ slotIds queue := by
  induction queue with
  | nil => simp [idFound, slotIds]
  | cons s rest ih =>
    cases s with
    | none => simpa [idFound, slotIds] using ih
    | some a =>
      by_cases hid : a.id = id
      · simp [idFound, slotIds, hid]
      · have h1 : idFound (some a :: rest) id = idFound rest id := by
          simp [idFound, hid]
        have h2 : slotIds (some a :: rest) = a.id :: slotIds rest := rfl
        rw [h1, h2, ih, List.mem_cons]
        constructor
        · exact Or.inr
        · rintro (h | h)
          · exact absurd h.symm hid
          · exact h

theorem add_fst_shape (q : DumbQQAlarmQueue) (w : Nat) :
    (q.add w).1.nextId = q.nextId + 1 ∧
    ((q.add w).1.queue = q.queue ∨
      ∃ i, q.queue[i]? = some none ∧
        (q.add w).1.queue = q.queue.set i (some ⟨q.nextId, w, QQAlarmState.Waiting⟩)) := by
  cases hf : q.queue.findIdx? (fun s => s.isNone) with
  | none =>
    rw [add_eq_full q w hf]
    exact ⟨rfl, Or.inl rfl⟩
  | some i =>
    have hq := findIdx_isNone_getElem q.queue i hf
    cases hnw : q.nextWakeup with
    | none =>
      rw [add_eq_some_none q w i hf hnw]
      exact ⟨rfl, Or.inr ⟨i, hq, rfl⟩⟩
    | some nw =>
      by_cases hlt : w < nw
      · rw [add_eq_some_lt q w i nw hf hnw hlt]
        exact ⟨rfl, Or.inr ⟨i, hq, rfl⟩⟩
      · rw [add_eq_some_ge q w i nw hf hnw hlt]
        exact ⟨rfl, Or.inr ⟨i, hq, rfl⟩⟩

theorem remove_shape (q : DumbQQAlarmQueue) (id : Nat) (r : DumbQQAlarmQueue ×
    Except QQAlarmError Unit) (hr : q.remove id = some r) :
    r.1.nextId = q.nextId ∧
    (r.1.queue = q.queue ∨ r.1.queue = clearId q.queue id) := by
  cases hnf : idFound q.queue id with
  | false =>
    rw [remove_eq_notfound q id hnf] at hr
    injection hr with hr
    subst hr
    exact ⟨rfl, Or.inl rfl⟩
  | true =>
    cases hm : minWaitingExcept q.queue id with
    | none =>
      cases hnw : q.nextWakeup.isSome with
      | true =>
        rw [remove_eq_none_some q id hnf hm hnw] at hr
        injection hr with hr
        subst hr
        exact ⟨rfl, Or.inr rfl⟩
      | false =>
        rw [remove_eq_none_none q id hnf hm hnw] at hr
        injection hr with hr
        subst hr
        exact ⟨rfl, Or.inr rfl⟩
    | some m =>
      cases hnw : q.nextWakeup with
      | none =>
        rw [remove_eq_some_panic q id m hnf hm hnw] at hr
        exact absurd hr (by simp)
      | some nw =>
        by_cases hne : m = nw
        · rw [remove_eq_some_eq q id m nw hnf hm hnw hne] at hr
          injection hr with hr
          subst hr
          exact ⟨rfl, Or.inr rfl⟩
        · rw [remove_eq_some_ne q id m nw hnf hm hnw hne] at hr
          injection hr with hr
          subst hr
          exact ⟨rfl, Or.inr rfl⟩

theorem update_fst_shape (q : DumbQQAlarmQueue) (b : Bool) (now now2 : Nat) :
    (q.update b now now2).1.nextId = q.nextId ∧
    ((q.update b now now2).1.queue = q.queue ∨
      (q.update b now now2).1.queue = markPending q.queue now) := by
  cases b with
  | false => exact ⟨rfl, Or.inl rfl⟩
  | true =>
    cases hm : minWaitingAbove q.queue now with
    | none =>
      rw [update_eq_none q now now2 hm]
      exact ⟨rfl, Or.inr rfl⟩
    | some m =>
      rw [update_eq_some q now now2 m hm]
      exact ⟨rfl, Or.inr rfl⟩

theorem consume_fst_shape (q : DumbQQAlarmQueue) :
    q.consumePending.1.nextId = q.nextId ∧
    (q.consumePending.1.queue = q.queue ∨
      q.consumePending.1.queue = q.queue.map (fun s =>
        match s with
        | some a => if a.state = QQAlarmState.Pending then none else some a
        | none => none)) := by
  cases hap : q.anyPending with
  | false =>
    rw [consumePending_eq_false q hap]
    exact ⟨rfl, Or.inl rfl⟩
  | true =>
    rw [consumePending_eq_true q hap]
    exact ⟨rfl, Or.inr rfl⟩

theorem applyOp_idInv (q : DumbQQAlarmQueue) (op : QQOp) (h : q.IdInv) :
    ∀ q', q.applyOp op = some q' → q'.IdInv := by
  obtain ⟨hb, hn⟩ := h
  intro q' hq'
  cases op with
  | add w =>
    injection hq' with hq'
    subst hq'
    obtain ⟨hnext, hqueue⟩ := add_fst_shape q w
    cases hqueue with
    | inl he =>
      refine ⟨?_, by rw [he]; exact hn⟩
      intro i hi
      rw [he] at hi
      have := hb i hi
      rw [hnext]
      omega
    | inr hex =>
      obtain ⟨i, hi, he⟩ := hex
      have hperm := slotIds_set_perm q.queue i ⟨q.nextId, w, QQAlarmState.Waiting⟩ hi
      constructor
      · intro j hj
        rw [he] at hj
        rw [hnext]
        rcases List.mem_cons.mp (hperm.mem_iff.mp hj) with hj | hj
        · have hj' : j = q.nextId := hj
          omega
        · have := hb j hj
          omega
      · rw [he]
        refine (hperm.nodup_iff).mpr (List.nodup_cons.mpr ⟨?_, hn⟩)
        intro hmem
        have hmem' : q.nextId ∈ slotIds q.queue := hmem
        exact absurd (hb _ hmem') (by omega)
  | remove id =>
    simp only [applyOp, Option.map_eq_some'] at hq'
    obtain ⟨r, hr, hr2⟩ := hq'
    subst hr2
    obtain ⟨hnext, hqueue⟩ := remove_shape q id r hr
    cases hqueue with
    | inl he =>
      rw [IdInv, he, hnext]
      exact ⟨hb, hn⟩
    | inr he =>
      rw [IdInv, he, hnext, slotIds_clearId]
      constructor
      · intro i hi
        exact hb i (List.mem_of_mem_filter hi)
      · exact hn.filter _
  | update b now now2 =>
    injection hq' with hq'
    subst hq'
    obtain ⟨hnext, hqueue⟩ := update_fst_shape q b now now2
    cases hqueue with
    | inl he =>
      rw [IdInv, he, hnext]
      exact ⟨hb, hn⟩
    | inr he =>
      rw [IdInv, he, hnext, slotIds_markPending]
      exact ⟨hb, hn⟩
  | consume =>
    injection hq' with hq'
    subst hq'
    obtain ⟨hnext, hqueue⟩ := consume_fst_shape q
    cases hqueue with
    | inl he =>
      rw [IdInv, he, hnext]
      exact ⟨hb, hn⟩
    | inr he =>
      rw [IdInv, he, hnext]
      have hperm := slotIds_consume_perm q.queue
      have hnodup2 : (pendingIds q.queue ++ slotIds (q.queue.map (fun s =>
          match s with
          | some a => if a.state = QQAlarmState.Pending then none else some a
          | none => none))).Nodup := hperm.nodup_iff.mp hn
      constructor
      · intro i hi
        exact hb i (hperm.symm.subset (List.mem_append_right _ hi))
      · exact hnodup2.of_append_right

theorem applyOp_notIn (i : Nat) (q : DumbQQAlarmQueue) (op : QQOp) (h : NotIn i q) :
    ∀ q', q.applyOp op = some q' → NotIn i q' := by
  obtain ⟨hlt, hmem⟩ := h
  intro q' hq'
  cases op with
  | add w =>
    injection hq' with hq'
    subst hq'
    obtain ⟨hnext, hqueue⟩ := add_fst_shape q w
    cases hqueue with
    | inl he =>
      rw [NotIn, he, hnext]
      exact ⟨by omega, hmem⟩
    | inr hex =>
      obtain ⟨j, hj, he⟩ := hex
      have hperm := slotIds_set_perm q.queue j ⟨q.nextId, w, QQAlarmState.Waiting⟩ hj
      rw [NotIn, he, hnext]
      refine ⟨by omega, ?_⟩
      intro hin
      rcases List.mem_cons.mp (hperm.mem_iff.mp hin) with hin | hin
      · have hin' : i = q.nextId := hin
        omega
      · exact hmem hin
  | remove id =>
    simp only [applyOp, Option.map_eq_some'] at hq'
    obtain ⟨r, hr, hr2⟩ := hq'
    subst hr2
    obtain ⟨hnext, hqueue⟩ := remove_shape q id r hr
    cases hqueue with
    | inl he =>
      rw [NotIn, he, hnext]
      exact ⟨hlt, hmem⟩
    | inr he =>
      rw [NotIn, he, hnext, slotIds_clearId]
      exact ⟨hlt, fun hin => hmem (List.mem_of_mem_filter hin)⟩
  | update b now now2 =>
    injection hq' with hq'
    subst hq'
    obtain ⟨hnext, hqueue⟩ := update_fst_shape q b now now2
    cases hqueue with
    | inl he =>
      rw [NotIn, he, hnext]
      exact ⟨hlt, hmem⟩
    | inr he =>
      rw [NotIn, he, hnext, slotIds_markPending]
      exact ⟨hlt, hmem⟩
  | consume =>
    injection hq' with hq'
    subst hq'
    obtain ⟨hnext, hqueue⟩ := consume_fst_shape q
    cases hqueue with
    | inl he =>
      rw [NotIn, he, hnext]
      exact ⟨hlt, hmem⟩
    | inr he =>
      rw [NotIn, he, hnext]
      refine ⟨hlt, fun hin => ?_⟩
      have hperm := slotIds_consume_perm q.queue
      exact hmem (hperm.symm.subset (List.mem_append_right _ hin))

theorem runOps_idInv (ops : List QQOp) (q : DumbQQAlarmQueue) (h : q.IdInv) :
    ∀ q', q.runOps ops = some q' → q'.IdInv := by
  induction ops generalizing q with
  | nil =>
    intro q' hq'
    injection hq' with hq'
    subst hq'
    exact h
  | cons op ops ih =>
    intro q' hq'
    rw [runOps, List.foldlM_cons] at hq'
    cases hstep : q.applyOp op with
    | none => rw [hstep] at hq'; simp at hq'
    | some q1 =>
      rw [hstep] at hq'
      exact ih q1 (applyOp_idInv q op h q1 hstep) q' hq'

theorem runOps_notIn (i : Nat) (ops : List QQOp) (q : DumbQQAlarmQueue) (h : NotIn i q) :
    ∀ q', q.runOps ops = some q' → NotIn i q' := by
  induction ops generalizing q with
  | nil =>
    intro q' hq'
    injection hq' with hq'
    subst hq'
    exact h
  | cons op ops ih =>
    intro q' hq'
    rw [runOps, List.foldlM_cons] at hq'
    cases hstep : q.applyOp op with
    | none => rw [hstep] at hq'; simp at hq'
    | some q1 =>
      rw [hstep] at hq'
      exact ih q1 (applyOp_notIn i q op h q1 hstep) q' hq'

theorem applyOp_nextId_mono (q : DumbQQAlarmQueue) (op : QQOp) :
    ∀ q', q.applyOp op = some q' → q.nextId ≤ q'.nextId := by
  intro q' hq'
  cases op with
  | add w =>
    injection hq' with hq'
    subst hq'
    rw [(add_fst_shape q w).1]
    omega
  | remove id =>
    simp only [applyOp, Option.map_eq_some'] at hq'
    obtain ⟨r, hr, hr2⟩ := hq'
    subst hr2
    rw [(remove_shape q id r hr).1]
  | update b now now2 =>
    injection hq' with hq'
    subst hq'
    rw [(update_fst_shape q b now now2).1]
  | consume =>
    injection hq' with hq'
    subst hq'
    rw [(consume_fst_shape q).1]

theorem runOps_nextId_mono (ops : List QQOp) (q : DumbQQAlarmQueue) :
    ∀ q', q.runOps ops = some q' → q.nextId ≤ q'.nextId := by
  induction ops generalizing q with
  | nil =>
    intro q' hq'
    injection hq' with hq'
    subst hq'
    exact le_refl _
  | cons op ops ih =>
    intro q' hq'
    rw [runOps, List.foldlM_cons] at hq'
    cases hstep : q.applyOp op with
    | none => rw [hstep] at hq'; simp at hq'
    | some q1 =>
      rw [hstep] at hq'
      exact le_trans (applyOp_nextId_mono q op q1 hstep) (ih q1 q' hq')

theorem slotIds_replicate_none (N : Nat) :
    slotIds (List.replicate N (none : Option QQAlarm)) = [] := by
  induction N with
  | zero => rfl
  | succ n ih => simp [List.replicate_succ, slotIds]

theorem new_idInv (N t0 : Nat) : (new N t0).IdInv := by
  constructor
  · intro i hi
    rw [show (new N t0).queue = List.replicate N none from rfl, slotIds_replicate_none] at hi
    simp at hi
  · rw [show (new N t0).queue = List.replicate N none from rfl, slotIds_replicate_none]
    exact List.nodup_nil

theorem markPending_getElem (queue : List (Option QQAlarm)) (now j : Nat) (a : QQAlarm)
    (hj : queue[j]? = some (some a)) (hw : a.state = QQAlarmState.Waiting)
    (hle : a.wakeAt ≤ now) :
    (markPending queue now)[j]? = some (some ⟨a.id, a.wakeAt, QQAlarmState.Pending⟩) := by
  rw [markPending, List.getElem?_map, hj]
  simp [hw, hle]

theorem consume_yields_once (q : DumbQQAlarmQueue) (j : Nat) (a : QQAlarm)
    (hInv : q.Inv) (hIdInv : q.IdInv)
    (hj : q.queue[j]? = some (some a)) (hp : a.state = QQAlarmState.Pending) :
    q.consumePending.2 = some (pendingIds q.queue) ∧
    (pendingIds q.queue).count a.id = 1 ∧
    NotIn a.id q.consumePending.1 := by
  have hmem : some a ∈ q.queue := List.getElem?_mem hj
  have hpend : anyPendingSlot q.queue = true := by
    rw [anyPendingSlot, List.any_eq_true]
    exact ⟨some a, hmem, by simp [hp]⟩
  have hap : q.anyPending = true := by rw [hInv.2.1, hpend]
  have hmemid : a.id ∈ pendingIds q.queue := by
    rw [pendingIds]
    exact List.mem_filterMap.mpr ⟨some a, hmem, by simp [hp]⟩
  have hnodup : (pendingIds q.queue).Nodup :=
    hIdInv.2.sublist (pendingIds_sublist q.queue)
  have hperm := slotIds_consume_perm q.queue
  have hnodup2 := hperm.nodup_iff.mp hIdInv.2
  refine ⟨?_, List.count_eq_one_of_mem hnodup hmemid, ?_⟩
  · rw [consumePending_eq_true q hap]
    rfl
  · rw [consumePending_eq_true q hap]
    constructor
    · exact hIdInv.1 a.id ((pendingIds_sublist q.queue).subset hmemid)
    · show a.id ∉ slotIds (q.queue.map _)
      exact List.disjoint_of_nodup_append hnodup2 hmemid

theorem notIn_consume_and_remove (q3 : DumbQQAlarmQueue) (i : Nat) (h : NotIn i q3) :
    (∀ ids3, q3.consumePending.2 = some ids3 → ids3.count i = 0) ∧
    q3.remove i = some (q3, .error .IdNotFound) := by
  constructor
  · intro ids3 h3
    cases hap : q3.anyPending with
    | false =>
      rw [consumePending_eq_false q3 hap] at h3
      exact absurd h3 (by simp)
    | true =>
      rw [consumePending_eq_true q3 hap] at h3
      injection h3 with h3
      subst h3
      rw [List.count_eq_zero]
      intro hmem
      exact h.2 ((pendingIds_sublist q3.queue).subset hmem)
  · apply remove_eq_notfound
    cases hif : idFound q3.queue i with
    | false => rfl
    | true => exact absurd ((idFound_iff_mem q3.queue i).mp hif) h.2

end DumbQQAlarmQueue

/-- **C5.** Ids returned by successful `add` calls are strictly increasing
across any interleaving of operations (hence never reused); hardware-alarm
handling (`update`) marks a due Waiting slot Pending (carrying its id); and
once a slot is Pending in a reachable state, the fully-drained
`consume_pending` yields its id exactly once, after which no later
`consume_pending` ever yields it again and `remove` on it reports
`IdNotFound`. -/
theorem c5_ids_and_single_consumption (N t0 w w' now now2 : Nat)
    (ops1 ops2 ops3 : List QQOp) (q1 q2 q3 : DumbQQAlarmQueue) (j : Nat) (a : QQAlarm) :
    ((DumbQQAlarmQueue.new N t0).runOps ops1 = some q1 →
      ∀ id1, (q1.add w).2 = .ok id1 →
      (q1.add w).1.runOps ops2 = some q2 →
      ∀ id2, (q2.add w').2 = .ok id2 → id1 < id2) ∧
    (q1.queue[j]? = some (some a) → a.state = QQAlarmState.Waiting → a.wakeAt ≤ now →
      (q1.update true now now2).1.queue[j]? =
        some (some ⟨a.id, a.wakeAt, QQAlarmState.Pending⟩)) ∧
    ((DumbQQAlarmQueue.new N t0).runOps ops1 = some q1 →
      q1.queue[j]? = some (some a) → a.state = QQAlarmState.Pending →
      ∃ ids, q1.consumePending.2 = some ids ∧ ids.count a.id = 1 ∧
        (q1.consumePending.1.runOps ops3 = some q3 →
          (∀ ids3, q3.consumePending.2 = some ids3 → ids3.count a.id = 0) ∧
          q3.remove a.id = some (q3, .error .IdNotFound))) := by
  refine ⟨?_, ?_, ?_⟩
  · intro hrun1 id1 hok1 hrun2 id2 hok2
    have e1 : id1 = q1.nextId := DumbQQAlarmQueue.add_ok_id q1 w id1 hok1
    have e2 : id2 = q2.nextId := DumbQQAlarmQueue.add_ok_id q2 w' id2 hok2
    have m1 : (q1.add w).1.nextId = q1.nextId + 1 := (DumbQQAlarmQueue.add_fst_shape q1 w).1
    have m2 := DumbQQAlarmQueue.runOps_nextId_mono ops2 (q1.add w).1 q2 hrun2
    omega
  · intro hj hw hle
    cases hm : DumbQQAlarmQueue.minWaitingAbove q1.queue now with
    | none =>
      rw [DumbQQAlarmQueue.update_eq_none q1 now now2 hm]
      exact DumbQQAlarmQueue.markPending_getElem q1.queue now j a hj hw hle
    | some m =>
      rw [DumbQQAlarmQueue.update_eq_some q1 now now2 m hm]
      exact DumbQQAlarmQueue.markPending_getElem q1.queue now j a hj hw hle
  · intro hrun hj hp
    have hInv := DumbQQAlarmQueue.runOps_inv ops1 _ (DumbQQAlarmQueue.new_inv N t0) q1 hrun
    have hIdInv :=
      DumbQQAlarmQueue.runOps_idInv ops1 _ (DumbQQAlarmQueue.new_idInv N t0) q1 hrun
    obtain ⟨hy, hcount, hnotin⟩ :=
      DumbQQAlarmQueue.consume_yields_once q1 j a hInv hIdInv hj hp
    refine ⟨DumbQQAlarmQueue.pendingIds q1.queue, hy, hcount, ?_⟩
    intro hrun3
    exact DumbQQAlarmQueue.notIn_consume_and_remove q3 a.id
      (DumbQQAlarmQueue.runOps_notIn a.id ops3 _ hnotin q3 hrun3)

/-- Closed instantiation of `c5_ids_and_single_consumption`: after `add 5` and
an alarm at tick 10, slot id 0 is Pending; draining yields id 0 exactly once,
and afterwards consuming again yields nothing and `remove 0` is
`IdNotFound`. -/
theorem c5_ids_and_single_consumption_witness :
    ∃ ids, (⟨⟨5, false⟩, [some ⟨0, 5, QQAlarmState.Pending⟩], none, 1, true⟩ :
        DumbQQAlarmQueue).consumePending.2 = some ids ∧ ids.count 0 = 1 ∧
      ((⟨⟨5, false⟩, [some ⟨0, 5, QQAlarmState.Pending⟩], none, 1, true⟩ :
          DumbQQAlarmQueue).consumePending.1.runOps [] =
          some ⟨⟨5, false⟩, [none], none, 1, false⟩ →
        (∀ ids3, (⟨⟨5, false⟩, [none], none, 1, false⟩ :
            DumbQQAlarmQueue).consumePending.2 = some ids3 → ids3.count 0 = 0) ∧
        (⟨⟨5, false⟩, [none], none, 1, false⟩ : DumbQQAlarmQueue).remove 0 =
          some (⟨⟨5, false⟩, [none], none, 1, false⟩, .error .IdNotFound)) :=
  (c5_ids_and_single_consumption 1 0 0 0 0 0 [QQOp.add 5, QQOp.update true 10 11] []
      [] (⟨⟨5, false⟩, [some ⟨0, 5, QQAlarmState.Pending⟩], none, 1, true⟩)
      (DumbQQAlarmQueue.new 0 0) (⟨⟨5, false⟩, [none], none, 1, false⟩) 0
      ⟨0, 5, QQAlarmState.Pending⟩).2.2 rfl rfl rfl

/-- Defined-bit set of `I2CInterruptStatus` in `interrupts.rs`
(`ARBITRATION_LOST`, `TRANSACTION_COMPLETE`, `TIME_OUT`, `NACK`,
`SCL_ST_TIME_OUT`, `SCL_MAIN_ST_TIME_OUT`). -/
def I2C_KNOWN_BITS : Nat :=
  (1 <<< 5) ||| (1 <<< 7) ||| (1 <<< 8) ||| (1 <<< 10) ||| (1 <<< 13) ||| (1 <<< 14)

/-- Error bits tested by `I2CInterruptStatus::is_error`: everything except
`TRANSACTION_COMPLETE`. -/
def I2C_ERROR_BITS : Nat :=
  (1 <<< 5) ||| (1 <<< 8) ||| (1 <<< 10) ||| (1 <<< 13) ||| (1 <<< 14)

/-- Embedding of `I2CInterruptStatus::is_error` (`intersects` with the error
bits). -/
def i2cIsError (flags : Nat) : Bool := flags &&& I2C_ERROR_BITS != 0

/-- Embedding of `sdc::machines::SetState`. -/
inductive SetState where
  | AwaitingInterrupt
  | Done
  deriving DecidableEq, Repr

/-- The `State<Result<(), I2CTransmissionError>>` returned by `Set::update`;
the error carries the observed interrupt flags
(`I2CTransmissionError::Unknown`). -/
inductive SetUpdResult where
  | active (didSomething : Bool)
  | doneOk
  | doneErr (flags : Nat)
  deriving DecidableEq, Repr

/-- Embedding of `sdc::machines::Set::update`.  `flags` is the raw I2C
mailbox value; `i2c_interrupt_get_and_clear(all)` observes
`flags &&& I2C_KNOWN_BITS` (and clears the mailbox, a side effect outside this
state). -/
def setUpdate (s : SetState) (flags : Nat) : SetState × SetUpdResult :=
  match s with
  | .AwaitingInterrupt =>
    let pending := flags &&& I2C_KNOWN_BITS
    if pending = 0 then
      (.AwaitingInterrupt, .active false)
    else if i2cIsError pending then
      (.Done, .doneErr pending)
    else
      (.Done, .doneOk)
  | .Done => (.Done, .doneOk)

/-- Embedding of `sdc::machines::DelayedGetState`; the `command` and `delta`
fields of `DelayedGet` do not influence the transitions and live in the
environment. -/
inductive DelayedGetState where
  | WriteAwaitingInterrupt
  | Delay (d : Delay)
  | ReadAwaitingInterrupt
  | Done
  deriving DecidableEq, Repr

/-- The `State<Result<(), DelayedGetError>>` returned by
`DelayedGet::update`. -/
inductive DGUpdResult where
  | active (didSomething : Bool)
  | doneOk
  | errWrite (flags : Nat)
  | errRead (flags : Nat)
  deriving DecidableEq, Repr

/-- Embedding of `DelayedGet::update`.  `alarmId` is the id returned by
`qq.add(now + delta).unwrap()` in the write-completion branch. -/
def dgUpdate (s : DelayedGetState) (flags : Nat) (alarmId : Nat) :
    DelayedGetState × DGUpdResult :=
  match s with
  | .WriteAwaitingInterrupt =>
    let pending := flags &&& I2C_KNOWN_BITS
    if pending = 0 then
      (.WriteAwaitingInterrupt, .active false)
    else if i2cIsError pending then
      (.Done, .errWrite pending)
    else
      (.Delay (.Waiting alarmId), .active true)
  | .Delay .Done => (.ReadAwaitingInterrupt, .active true)
  | .ReadAwaitingInterrupt =>
    let pending := flags &&& I2C_KNOWN_BITS
    if pending = 0 then
      (.ReadAwaitingInterrupt, .active false)
    else if i2cIsError pending then
      (.Done, .errRead pending)
    else
      (.Done, .doneOk)
  | .Done => (.Done, .doneOk)
  | .Delay (.Waiting id) => (.Delay (.Waiting id), .active false)

/-- Embedding of `SDCSimpleMeasurmentState` from
`machines/sdc_simple_measurment.rs`. -/
inductive SDCSimpleMeasurmentState where
  | None
  | BootDelay (d : Delay)
  | SetDelta (s : SetState)
  | Start (s : SetState)
  | WaitReady
  | Measurment (g : DelayedGetState)
  | Error
  deriving DecidableEq, Repr

/-- External observations one `SDCSimpleMeasurment::update` call makes: the
raw I2C interrupt mailbox value, whether the GPIO6 ready bit is pending, the
alarm id issued by `qq.add`, and whether `read_response_measurment` succeeds
(its CRC checks). -/
structure SDCEnv where
  i2cFlags : Nat
  gpioReady : Bool
  alarmId : Nat
  readMeasurmentOk : Bool
  deriving Repr

/-- Embedding of `SDCSimpleMeasurment::update`.  The diagnostic writes, the
I2C byte traffic of `SDCSet::start`/`get_command_read` and the measurement
delivery to the controller are external side effects not part of this state.
Returns the new driver state and the returned boolean. -/
def sdcUpdate (st : SDCSimpleMeasurmentState) (env : SDCEnv) :
    SDCSimpleMeasurmentState × Bool :=
  match st with
  | .BootDelay .Done => (.SetDelta .AwaitingInterrupt, true)
  | .SetDelta s =>
    match setUpdate s env.i2cFlags with
    | (s', .active d) => (.SetDelta s', d)
    | (_, .doneOk) => (.Start .AwaitingInterrupt, true)
    | (_, .doneErr _) => (.Error, true)
  | .Start s =>
    match setUpdate s env.i2cFlags with
    | (s', .active d) => (.Start s', d)
    | (_, .doneOk) => (.WaitReady, true)
    | (_, .doneErr _) => (.Error, true)
  | .WaitReady =>
    if env.gpioReady then (.Measurment .WriteAwaitingInterrupt, true) else (.WaitReady, false)
  | .Measurment g =>
    match dgUpdate g env.i2cFlags env.alarmId with
    | (g', .active d) => (.Measurment g', d)
    | (_, .doneOk) =>
      if env.readMeasurmentOk then (.WaitReady, true) else (.Error, true)
    | (_, .errWrite _) => (.Error, true)
    | (_, .errRead _) => (.Error, true)
  | .None => (.None, false)
  | .Error => (.Error, false)
  | .BootDelay (.Waiting id) => (.BootDelay (.Waiting id), false)

/-- Embedding of `SDCSimpleMeasurment::on_alarm`. -/
def sdcOnAlarm (st : SDCSimpleMeasurmentState) (id : Nat) :
    SDCSimpleMeasurmentState × Bool :=
  match st with
  | .BootDelay d =>
    match d.onAlarm id with
    | (d', r) => (.BootDelay d', r)
  | .Measurment (.Delay d) =>
    match d.onAlarm id with
    | (d', r) => (.Measurment (.Delay d'), r)
  | st => (st, false)

/-- One polled step of the driver: an `update` with some environment or an
`on_alarm` with some id. -/
inductive SDCStep where
  | upd (env : SDCEnv)
  | alarm (id : Nat)

/-- Applying one driver step (discarding the returned boolean). -/
def sdcApplyStep (st : SDCSimpleMeasurmentState) : SDCStep → SDCSimpleMeasurmentState
  | .upd env => (sdcUpdate st env).1
  | .alarm id => (sdcOnAlarm st id).1

/-- Running a sequence of driver steps. -/
def sdcRunSteps (st : SDCSimpleMeasurmentState) (steps : List SDCStep) :
    SDCSimpleMeasurmentState :=
  steps.foldl sdcApplyStep st

/-- **C9.** If an I2C error mailbox bit (arbitration lost, NACK, timeout,
clock-stretch timeout) is observed at any awaited step (`SetDelta`, `Start`,
write-phase or read-phase of the delayed measurement read), the driver
transitions to `Error`; `Error` is terminal for the driver's `update` and
`on_alarm` transitions: every subsequent `update` returns false with no state
change, and no sequence of update/on-alarm steps ever leaves `Error`.
Includes the spec scenario: `WaitReady` observing the ready bit moves to the
delayed read, whose write phase observing NACK moves to `Error`. -/
theorem c9_i2c_error_terminal (env env' : SDCEnv) (steps : List SDCStep) (id : Nat) :
    (env.i2cFlags &&& I2C_KNOWN_BITS ≠ 0 →
      i2cIsError (env.i2cFlags &&& I2C_KNOWN_BITS) = true →
      sdcUpdate (.SetDelta .AwaitingInterrupt) env = (.Error, true) ∧
      sdcUpdate (.Start .AwaitingInterrupt) env = (.Error, true) ∧
      sdcUpdate (.Measurment .WriteAwaitingInterrupt) env = (.Error, true) ∧
      sdcUpdate (.Measurment .ReadAwaitingInterrupt) env = (.Error, true)) ∧
    sdcUpdate .WaitReady { env with gpioReady := true } =
      (.Measurment .WriteAwaitingInterrupt, true) ∧
    sdcUpdate (.Measurment .WriteAwaitingInterrupt)
      { i2cFlags := 1 <<< 10, gpioReady := false, alarmId := 0, readMeasurmentOk := true } =
      (.Error, true) ∧
    sdcUpdate .Error env = (.Error, false) ∧
    sdcOnAlarm .Error id = (.Error, false) ∧
    sdcRunSteps .Error steps = .Error ∧
    (sdcUpdate (sdcRunSteps .Error steps) env').2 = false := by
  have hterm : sdcRunSteps .Error steps = .Error := by
    induction steps with
    | nil => rfl
    | cons step rest ih =>
      show sdcRunSteps (sdcApplyStep .Error step) rest = .Error
      cases step with
      | upd env0 => exact ih
      | alarm id0 => exact ih
  refine ⟨?_, by simp [sdcUpdate], by decide, rfl, rfl, hterm, ?_⟩
  · intro h1 h2
    refine ⟨?_, ?_, ?_, ?_⟩ <;> simp [sdcUpdate, setUpdate, dgUpdate, h1, h2]
  · rw [hterm]
    rfl

/-- Closed instantiation of `c9_i2c_error_terminal`: a NACK observed while
awaiting the SetDelta write completion sends the driver to `Error`. -/
theorem c9_i2c_error_terminal_witness :
    sdcUpdate (.SetDelta .AwaitingInterrupt)
      { i2cFlags := 1 <<< 10, gpioReady := false, alarmId := 0, readMeasurmentOk := true } =
      (.Error, true) :=
  ((c9_i2c_error_terminal
      { i2cFlags := 1 <<< 10, gpioReady := false, alarmId := 0, readMeasurmentOk := true }
      { i2cFlags := 0, gpioReady := false, alarmId := 0, readMeasurmentOk := true } [] 0).1
    (by decide) (by decide)).1
